import Mathlib

set_option maxHeartbeats 1000000

/-! Verification development for the WhoVoted geocoding-and-cross-reference
    pipeline (src/backend/geocoder.py, src/backend/processor.py,
    src/backend/vuid_resolver.py).

    Python strings are modelled as `List Char`.  `str.upper` is modelled
    character-wise over the ASCII range.  `re.sub` applied to a pattern of
    the form word-boundary + word characters + word-boundary (as in
    `GeocodingCache.normalize_address`) replaces exactly the maximal runs of
    word characters equal to the pattern, so it is modelled by tokenising a
    string into maximal word-character runs and single separator characters,
    mapping the runs, and flattening back. -/

namespace WhoVoted

abbrev PyStr := List Char

/-- Model of Python `str.upper` on a single character (ASCII range). -/
def upperChar (c : Char) : Char :=
  if 97 ≤ c.toNat ∧ c.toNat ≤ 122 then Char.ofNat (c.toNat - 32) else c

/-- Whitespace characters recognised by Python `str.split()` / `str.strip()`. -/
def pySpace (c : Char) : Bool :=
  c == ' ' || c == '\t' || c == '\n' || c == '\r' || c == '\x0b' || c == '\x0c'

/-- Word characters of the regex class backslash-w (ASCII part), as used by
    the word-boundary patterns in `normalize_address`. -/
def isWordChar (c : Char) : Bool :=
  c.isAlphanum || c == '_'

/-- Model of Python `str.split()` (split on whitespace runs, dropping empty
    pieces), from `' '.join(normalized.split())` in `normalize_address`. -/
def pySplit : PyStr → List PyStr
  | [] => []
  | [c] => if pySpace c then [] else [[c]]
  | c :: d :: cs =>
    if pySpace c then pySplit (d :: cs)
    else if pySpace d then [c] :: pySplit cs
    else
      match pySplit (d :: cs) with
      | [] => [[c]]
      | w :: ws => (c :: w) :: ws

/-- Model of Python `' '.join(words)`. -/
def pyJoin (ws : List PyStr) : PyStr :=
  List.intercalate [' '] ws

/-- Token of the word-run decomposition of a string: a maximal run of word
    characters, or a single non-word character. -/
inductive Tok where
  | word (w : PyStr)
  | sep (c : Char)
deriving DecidableEq, Repr

/-- Decompose a string into maximal word-character runs and single
    separator characters. -/
def toks : PyStr → List Tok
  | [] => []
  | [c] => if isWordChar c then [Tok.word [c]] else [Tok.sep c]
  | c :: d :: cs =>
    if isWordChar c then
      if isWordChar d then
        match toks (d :: cs) with
        | Tok.word w :: ts => Tok.word (c :: w) :: ts
        | ts => Tok.word [c] :: ts
      else Tok.word [c] :: toks (d :: cs)
    else Tok.sep c :: toks (d :: cs)

/-- Character content of one token. -/
def tokStr : Tok → PyStr
  | .word w => w
  | .sep c => [c]

/-- Flatten a token list back into a string. -/
def joinT (ts : List Tok) : PyStr :=
  (ts.map tokStr).flatten

/-- One word-boundary substitution on a single token: the model of
    `re.sub` with a word-boundary-delimited pattern acts on maximal word
    runs only. -/
def subTok (p r : PyStr) : Tok → Tok
  | .word w => if w = p then Tok.word r else Tok.word w
  | .sep c => Tok.sep c

/-- Model of `re.sub` with pattern word-boundary + `p` + word-boundary and
    replacement `r`, for pure-word `p` and `r`: replace every maximal word
    run equal to `p`. -/
def subWord (p r : PyStr) (s : PyStr) : PyStr :=
  joinT ((toks s).map (subTok p r))

/-- The ordered substitution table of `GeocodingCache.normalize_address`. -/
def replacements : List (PyStr × PyStr) :=
  [ ("ST".toList, "STREET".toList)
  , ("AVE".toList, "AVENUE".toList)
  , ("RD".toList, "ROAD".toList)
  , ("DR".toList, "DRIVE".toList)
  , ("LN".toList, "LANE".toList)
  , ("CT".toList, "COURT".toList)
  , ("APT".toList, "APARTMENT".toList)
  , ("N".toList, "NORTH".toList)
  , ("S".toList, "SOUTH".toList)
  , ("E".toList, "EAST".toList)
  , ("W".toList, "WEST".toList)
  , ("BLVD".toList, "BOULEVARD".toList)
  , ("CIR".toList, "CIRCLE".toList)
  , ("PKWY".toList, "PARKWAY".toList)
  , ("HWY".toList, "HIGHWAY".toList)
  , ("TX".toList, "TEXAS".toList) ]

/-- Application of an ordered substitution table, as the `for pattern,
    replacement in replacements.items()` loop of `normalize_address`. -/
def applySubs (prs : List (PyStr × PyStr)) (s : PyStr) : PyStr :=
  prs.foldl (fun acc pr => subWord pr.1 pr.2 acc) s

/-- Embedding of `GeocodingCache.normalize_address`: empty strings map to
    the empty string; otherwise uppercase, collapse whitespace, and apply
    the ordered word-boundary substitutions. -/
def normalizeAddress (address : PyStr) : PyStr :=
  if address = [] then []
  else applySubs replacements (pyJoin (pySplit (address.map upperChar)))

example : normalizeAddress "123 main st, tx".toList = "123 MAIN STREET, TEXAS".toList := by
  decide

example : normalizeAddress "  5 N  oak  Ave ".toList = "5 NORTH OAK AVENUE".toList := by
  decide

/-! Character-level facts. -/

theorem char_ofNat_toNat_valid (n : Nat) (h : n.isValidChar) : (Char.ofNat n).toNat = n := by
  simp [Char.ofNat, h, Char.toNat, Char.ofNatAux, UInt32.toNat, UInt32.ofNatCore]

theorem upperChar_idem (c : Char) : upperChar (upperChar c) = upperChar c := by
  by_cases h : 97 ≤ c.toNat ∧ c.toNat ≤ 122
  · have hv : (c.toNat - 32).isValidChar := by
      left; omega
    have ht : (Char.ofNat (c.toNat - 32)).toNat = c.toNat - 32 :=
      char_ofNat_toNat_valid _ hv
    unfold upperChar
    rw [if_pos h, if_neg]
    rw [ht]
    omega
  · unfold upperChar
    rw [if_neg h, if_neg h]

theorem pySpace_cases {c : Char} (h : pySpace c = true) :
    c = ' ' ∨ c = '\t' ∨ c = '\n' ∨ c = '\r' ∨ c = '\x0b' ∨ c = '\x0c' := by
  have h' := h
  simp only [pySpace, Bool.or_eq_true, beq_iff_eq] at h'
  tauto

theorem word_not_space {c : Char} (h : isWordChar c = true) : pySpace c = false := by
  cases hs : pySpace c
  · rfl
  · exfalso
    rcases pySpace_cases hs with h1 | h1 | h1 | h1 | h1 | h1 <;> subst h1 <;>
      revert h <;> decide

/-! Facts about `pySplit` and `pyJoin`. -/

theorem pySplit_mem (s : PyStr) :
    ∀ w ∈ pySplit s, w ≠ [] ∧ ∀ c ∈ w, pySpace c = false ∧ c ∈ s := by
  induction s using pySplit.induct with
  | case1 => intro w hw; simp [pySplit] at hw
  | case2 c hc => intro w hw; simp [pySplit, hc] at hw
  | case3 c hc =>
    intro w hw
    simp only [pySplit, if_neg hc, List.mem_singleton] at hw
    subst hw
    refine ⟨by simp, ?_⟩
    intro e he
    simp only [List.mem_singleton] at he
    subst he
    exact ⟨by simpa using hc, by simp⟩
  | case4 c d cs hc ih =>
    intro w hw
    rw [pySplit, if_pos hc] at hw
    obtain ⟨hne, hall⟩ := ih w hw
    exact ⟨hne, fun e he => ⟨(hall e he).1, List.mem_cons_of_mem _ (hall e he).2⟩⟩
  | case5 c d cs hc hd ih =>
    intro w hw
    rw [pySplit, if_neg hc, if_pos hd] at hw
    rcases List.mem_cons.mp hw with hw | hw
    · subst hw
      refine ⟨by simp, ?_⟩
      intro e he
      simp only [List.mem_singleton] at he
      subst he
      exact ⟨by simpa using hc, by simp⟩
    · obtain ⟨hne, hall⟩ := ih w hw
      refine ⟨hne, fun e he => ⟨(hall e he).1, ?_⟩⟩
      simp [List.mem_cons, (hall e he).2]
  | case6 c d cs hc hd hsplit ih =>
    intro w hw
    rw [pySplit, if_neg hc, if_neg hd, hsplit] at hw
    simp only [List.mem_singleton] at hw
    subst hw
    refine ⟨by simp, ?_⟩
    intro e he
    simp only [List.mem_singleton] at he
    subst he
    exact ⟨by simpa using hc, by simp⟩
  | case7 c d cs hc hd w0 ws0 hsplit ih =>
    intro w hw
    rw [pySplit, if_neg hc, if_neg hd, hsplit] at hw
    rcases List.mem_cons.mp hw with hw | hw
    · subst hw
      obtain ⟨hne0, hall0⟩ := ih w0 (by rw [hsplit]; exact List.mem_cons_self _ _)
      refine ⟨by simp, ?_⟩
      intro e he
      rcases List.mem_cons.mp he with he | he
      · subst he
        exact ⟨by simpa using hc, by simp⟩
      · exact ⟨(hall0 e he).1, List.mem_cons_of_mem _ (hall0 e he).2⟩
    · obtain ⟨hne, hall⟩ := ih w (by rw [hsplit]; exact List.mem_cons_of_mem _ hw)
      exact ⟨hne, fun e he => ⟨(hall e he).1, List.mem_cons_of_mem _ (hall e he).2⟩⟩

theorem pySplit_single (w : PyStr) (hne : w ≠ [])
    (hsp : ∀ c ∈ w, pySpace c = false) : pySplit w = [w] := by
  induction w with
  | nil => exact absurd rfl hne
  | cons c w ih =>
    cases w with
    | nil =>
      have hc : pySpace c = false := hsp c (by simp)
      simp [pySplit, hc]
    | cons d w' =>
      have hc : pySpace c = false := hsp c (by simp)
      have hd : pySpace d = false := hsp d (by simp)
      have hrec : pySplit (d :: w') = [d :: w'] := by
        refine ih (by simp) ?_
        intro e he
        exact hsp e (List.mem_cons_of_mem _ he)
      rw [pySplit, if_neg (by simp [hc]), if_neg (by simp [hd]), hrec]

theorem pySplit_word_space (w t : PyStr) (hne : w ≠ [])
    (hsp : ∀ c ∈ w, pySpace c = false) :
    pySplit (w ++ ' ' :: t) = w :: pySplit t := by
  induction w with
  | nil => exact absurd rfl hne
  | cons c w ih =>
    cases w with
    | nil =>
      have hc : pySpace c = false := hsp c (by simp)
      simp only [List.singleton_append]
      rw [pySplit, if_neg (by simp [hc]), if_pos (by decide)]
    | cons d w' =>
      have hc : pySpace c = false := hsp c (by simp)
      have hd : pySpace d = false := hsp d (by simp)
      have hrec : pySplit ((d :: w') ++ ' ' :: t) = (d :: w') :: pySplit t := by
        refine ih (by simp) ?_
        intro e he
        exact hsp e (List.mem_cons_of_mem _ he)
      simp only [List.cons_append] at hrec ⊢
      rw [pySplit, if_neg (by simp [hc]), if_neg (by simp [hd]), hrec]

theorem pyJoin_nil : pyJoin [] = [] := by
  simp [pyJoin, List.intercalate]

theorem pyJoin_single (w : PyStr) : pyJoin [w] = w := by
  simp [pyJoin, List.intercalate]

theorem pyJoin_cons (w w' : PyStr) (ws : List PyStr) :
    pyJoin (w :: w' :: ws) = w ++ ' ' :: pyJoin (w' :: ws) := by
  simp [pyJoin, List.intercalate, List.intersperse]

theorem pySplit_pyJoin (ws : List PyStr)
    (h : ∀ w ∈ ws, w ≠ [] ∧ ∀ c ∈ w, pySpace c = false) :
    pySplit (pyJoin ws) = ws := by
  induction ws with
  | nil => simp [pyJoin_nil, pySplit]
  | cons w ws ih =>
    cases ws with
    | nil =>
      rw [pyJoin_single]
      exact pySplit_single w (h w (by simp)).1 (h w (by simp)).2
    | cons w' ws' =>
      rw [pyJoin_cons]
      rw [pySplit_word_space w _ (h w (by simp)).1 (h w (by simp)).2]
      rw [ih (fun u hu => h u (List.mem_cons_of_mem _ hu))]

theorem mem_pyJoin {c : Char} {ws : List PyStr} (h : c ∈ pyJoin ws) :
    c = ' ' ∨ ∃ w ∈ ws, c ∈ w := by
  induction ws with
  | nil => simp [pyJoin_nil] at h
  | cons w ws ih =>
    cases ws with
    | nil =>
      rw [pyJoin_single] at h
      exact Or.inr ⟨w, by simp, h⟩
    | cons w' ws' =>
      rw [pyJoin_cons] at h
      rcases List.mem_append.mp h with h | h
      · exact Or.inr ⟨w, by simp, h⟩
      · rcases List.mem_cons.mp h with h | h
        · exact Or.inl h
        · rcases ih h with h | ⟨u, hu, hc⟩
          · exact Or.inl h
          · exact Or.inr ⟨u, List.mem_cons_of_mem _ hu, hc⟩

/-! Facts about the word-run tokenisation. -/

theorem joinT_nil : joinT [] = [] := rfl

theorem joinT_cons (t : Tok) (ts : List Tok) :
    joinT (t :: ts) = tokStr t ++ joinT ts := by
  simp [joinT]

theorem joinT_append (a b : List Tok) : joinT (a ++ b) = joinT a ++ joinT b := by
  simp [joinT]

theorem toks_sep_cons {c : Char} (h : isWordChar c = false) (s : PyStr) :
    toks (c :: s) = Tok.sep c :: toks s := by
  cases s with
  | nil => simp [toks, h]
  | cons d cs => simp [toks, h]

theorem toks_head_word {c : Char} (h : isWordChar c = true) (cs : PyStr) :
    ∃ w ts, toks (c :: cs) = Tok.word w :: ts := by
  cases cs with
  | nil => exact ⟨[c], [], by simp [toks, h]⟩
  | cons d cs' =>
    by_cases hd : isWordChar d
    · rcases htd : toks (d :: cs') with _ | ⟨t, ts⟩
      · exact ⟨[c], [], by simp [toks, h, hd, htd]⟩
      · cases t with
        | word w => exact ⟨c :: w, ts, by simp [toks, h, hd, htd]⟩
        | sep e => exact ⟨[c], Tok.sep e :: ts, by simp [toks, h, hd, htd]⟩
    · exact ⟨[c], toks (d :: cs'), by simp [toks, h, hd]⟩

theorem toks_word_append (w t : PyStr) (hne : w ≠ [])
    (hw : ∀ c ∈ w, isWordChar c = true)
    (ht : t = [] ∨ ∃ d s, t = d :: s ∧ isWordChar d = false) :
    toks (w ++ t) = Tok.word w :: toks t := by
  induction w with
  | nil => exact absurd rfl hne
  | cons c w ih =>
    have hc : isWordChar c = true := hw c (by simp)
    cases w with
    | nil =>
      rcases ht with h | ⟨d, s, rfl, hd⟩
      · subst h; simp [toks, hc]
      · simp [toks, hc, hd]
    | cons c' w' =>
      have hc' : isWordChar c' = true := hw c' (by simp)
      have hrec : toks ((c' :: w') ++ t) = Tok.word (c' :: w') :: toks t :=
        ih (by simp) (fun e he => hw e (List.mem_cons_of_mem _ he))
      simp only [List.cons_append] at hrec ⊢
      simp [toks, hc, hc', hrec]

theorem toks_append_of_sep {a : Char} (ha : isWordChar a = false) (t : PyStr) :
    ∀ s, toks (s ++ a :: t) = toks s ++ toks (a :: t) := by
  intro s
  induction s with
  | nil => simp [toks]
  | cons c s ih =>
    cases s with
    | nil =>
      by_cases hc : isWordChar c
      · simp [toks, hc, ha]
      · simp [toks, hc, ha]
    | cons d s' =>
      by_cases hc : isWordChar c
      · by_cases hd : isWordChar d
        · obtain ⟨w, ts, htd⟩ := toks_head_word hd s'
          simp only [List.cons_append] at ih ⊢
          have hmid : toks (d :: (s' ++ a :: t)) = Tok.word w :: (ts ++ toks (a :: t)) := by
            rw [ih, htd]; simp
          simp [toks, hc, hd, hmid, htd]
        · simp only [List.cons_append] at ih ⊢
          simp [toks, hc, hd, ih]
      · simp only [List.cons_append] at ih ⊢
        simp [toks, hc, ih]

theorem joinT_toks (s : PyStr) : joinT (toks s) = s := by
  induction s with
  | nil => simp [toks, joinT_nil]
  | cons c s ih =>
    cases s with
    | nil =>
      by_cases hc : isWordChar c <;> simp [toks, hc, joinT_cons, tokStr, joinT_nil]
    | cons d cs =>
      by_cases hc : isWordChar c
      · by_cases hd : isWordChar d
        · obtain ⟨w, ts, htd⟩ := toks_head_word hd cs
          have ihd : w ++ joinT ts = d :: cs := by
            have := ih
            rw [htd, joinT_cons] at this
            simpa [tokStr] using this
          simp [toks, hc, hd, htd, joinT_cons, tokStr, ihd]
        · simp [toks, hc, hd, joinT_cons, tokStr, ih]
      · simp [toks, hc, joinT_cons, tokStr, ih]

/-- A token is a word run. -/
def isWordTok : Tok → Bool
  | .word _ => true
  | .sep _ => false

/-- Wellformedness of one token: word runs are nonempty pure-word strings,
    separators are single non-word characters. -/
def tokOK : Tok → Bool
  | .word w => !w.isEmpty && w.all isWordChar
  | .sep c => !isWordChar c

/-- Wellformedness of a token list: every token is wellformed and no two
    word runs are adjacent (maximality). -/
def WFtoks (ts : List Tok) : Prop :=
  (∀ t ∈ ts, tokOK t = true) ∧
    List.Chain' (fun a b => isWordTok a = false ∨ isWordTok b = false) ts

theorem WFtoks_tail {t : Tok} {ts : List Tok} (h : WFtoks (t :: ts)) : WFtoks ts :=
  ⟨fun u hu => h.1 u (List.mem_cons_of_mem _ hu), h.2.tail⟩

theorem toks_WF (s : PyStr) : WFtoks (toks s) := by
  induction s with
  | nil => exact ⟨by simp [toks], by simp [toks]⟩
  | cons c s ih =>
    cases s with
    | nil =>
      by_cases hc : isWordChar c
      · refine ⟨?_, by simp [toks, hc]⟩
        intro t ht
        simp [toks, hc] at ht
        subst ht
        simp [tokOK, hc]
      · refine ⟨?_, by simp [toks, hc]⟩
        intro t ht
        simp [toks, hc] at ht
        subst ht
        simp [tokOK, hc]
    | cons d cs =>
      by_cases hc : isWordChar c
      · by_cases hd : isWordChar d
        · obtain ⟨w, ts, htd⟩ := toks_head_word hd cs
          rw [htd] at ih
          have hwOK : tokOK (Tok.word w) = true := ih.1 _ (by simp)
          have hcons : toks (c :: d :: cs) = Tok.word (c :: w) :: ts := by
            simp [toks, hc, hd, htd]
          rw [hcons]
          constructor
          · intro t ht
            rcases List.mem_cons.mp ht with rfl | ht
            · simp only [tokOK, Bool.and_eq_true, List.all_eq_true] at hwOK ⊢
              refine ⟨by simp, ?_⟩
              intro e he
              rcases List.mem_cons.mp he with rfl | he
              · exact hc
              · exact hwOK.2 e he
            · exact ih.1 t (List.mem_cons_of_mem _ ht)
          · cases ts with
            | nil => simp
            | cons t' ts' =>
              have hrel := List.chain'_cons.mp ih.2
              exact List.chain'_cons.mpr ⟨hrel.1, hrel.2⟩
        · have hcons : toks (c :: d :: cs) = Tok.word [c] :: toks (d :: cs) := by
            simp [toks, hc, hd]
          rw [hcons]
          have hsep : toks (d :: cs) = Tok.sep d :: toks cs :=
            toks_sep_cons (by simpa using hd) cs
          constructor
          · intro t ht
            rcases List.mem_cons.mp ht with rfl | ht
            · simp [tokOK, hc]
            · exact ih.1 t ht
          · rw [hsep]
            rw [hsep] at ih
            exact List.chain'_cons.mpr ⟨Or.inr (by simp [isWordTok]), ih.2⟩
      · have hcons : toks (c :: d :: cs) = Tok.sep c :: toks (d :: cs) :=
          toks_sep_cons (by simpa using hc) (d :: cs)
        rw [hcons]
        constructor
        · intro t ht
          rcases List.mem_cons.mp ht with rfl | ht
          · simp [tokOK, hc]
          · exact ih.1 t ht
        · cases htd : toks (d :: cs) with
          | nil => simp
          | cons t' ts' =>
            rw [htd] at ih
            exact List.chain'_cons.mpr ⟨Or.inl (by simp [isWordTok]), ih.2⟩

theorem toks_joinT {ts : List Tok} (h : WFtoks ts) : toks (joinT ts) = ts := by
  induction ts with
  | nil => simp [joinT_nil, toks]
  | cons t ts ih =>
    have hts : WFtoks ts := WFtoks_tail h
    cases t with
    | sep c =>
      have hcOK : tokOK (Tok.sep c) = true := h.1 _ (by simp)
      simp only [tokOK, Bool.not_eq_true'] at hcOK
      rw [joinT_cons]
      simp only [tokStr, List.singleton_append]
      rw [toks_sep_cons hcOK, ih hts]
    | word w =>
      have hwOK : tokOK (Tok.word w) = true := h.1 _ (by simp)
      simp only [tokOK, Bool.and_eq_true, List.all_eq_true, Bool.not_eq_true'] at hwOK
      have hwne : w ≠ [] := by
        intro hw
        subst hw
        simp [List.isEmpty] at hwOK
      rw [joinT_cons]
      simp only [tokStr]
      rw [toks_word_append w (joinT ts) hwne hwOK.2 ?side, ih hts]
      case side =>
        cases ts with
        | nil => exact Or.inl joinT_nil
        | cons t' ts' =>
          have hrel := (List.chain'_cons.mp h.2).1
          cases t' with
          | word w' => simp [isWordTok] at hrel
          | sep c' =>
            have hc'OK : tokOK (Tok.sep c') = true := h.1 _ (by simp)
            simp only [tokOK, Bool.not_eq_true'] at hc'OK
            exact Or.inr ⟨c', joinT ts', by simp [joinT_cons, tokStr], hc'OK⟩

/-! Facts about word-boundary substitution. -/

theorem tokOK_subTok {p r : PyStr} (hr : tokOK (Tok.word r) = true) {t : Tok}
    (h : tokOK t = true) : tokOK (subTok p r t) = true := by
  cases t with
  | word w =>
    simp only [subTok]
    split
    · exact hr
    · exact h
  | sep c => exact h

theorem isWordTok_subTok (p r : PyStr) (t : Tok) :
    isWordTok (subTok p r t) = isWordTok t := by
  cases t with
  | word w =>
    simp only [subTok]
    split <;> rfl
  | sep c => rfl

theorem WFtoks_map_subTok {p r : PyStr} (hr : tokOK (Tok.word r) = true)
    {ts : List Tok} (h : WFtoks ts) : WFtoks (ts.map (subTok p r)) := by
  constructor
  · intro t ht
    obtain ⟨u, hu, rfl⟩ := List.mem_map.mp ht
    exact tokOK_subTok hr (h.1 u hu)
  · rw [List.chain'_map]
    refine h.2.imp ?_
    intro a b hab
    rcases hab with hab | hab
    · exact Or.inl (by rw [isWordTok_subTok, hab])
    · exact Or.inr (by rw [isWordTok_subTok, hab])

theorem toks_subWord {p r : PyStr} (hr : tokOK (Tok.word r) = true) (s : PyStr) :
    toks (subWord p r s) = (toks s).map (subTok p r) := by
  unfold subWord
  exact toks_joinT (WFtoks_map_subTok hr (toks_WF s))

/-- Composite effect of an ordered substitution table on a single token. -/
def chainTokL (prs : List (PyStr × PyStr)) (t : Tok) : Tok :=
  prs.foldl (fun t pr => subTok pr.1 pr.2 t) t

/-- Composite effect of an ordered substitution table on a single word run. -/
def chainW (prs : List (PyStr × PyStr)) (w : PyStr) : PyStr :=
  prs.foldl (fun acc pr => if acc = pr.1 then pr.2 else acc) w

theorem chainTokL_cons (pr : PyStr × PyStr) (prs : List (PyStr × PyStr)) (t : Tok) :
    chainTokL (pr :: prs) t = chainTokL prs (subTok pr.1 pr.2 t) := rfl

theorem applySubs_nil (s : PyStr) : applySubs [] s = s := rfl

theorem applySubs_cons (pr : PyStr × PyStr) (prs : List (PyStr × PyStr)) (s : PyStr) :
    applySubs (pr :: prs) s = applySubs prs (subWord pr.1 pr.2 s) := rfl

theorem chainTokL_word (prs : List (PyStr × PyStr)) (w : PyStr) :
    chainTokL prs (Tok.word w) = Tok.word (chainW prs w) := by
  induction prs generalizing w with
  | nil => rfl
  | cons pr prs ih =>
    rw [chainTokL_cons]
    simp only [subTok]
    by_cases h : w = pr.1
    · rw [if_pos h, ih]
      unfold chainW
      rw [List.foldl_cons, if_pos h]
    · rw [if_neg h, ih]
      unfold chainW
      rw [List.foldl_cons, if_neg h]

theorem chainTokL_sep (prs : List (PyStr × PyStr)) (c : Char) :
    chainTokL prs (Tok.sep c) = Tok.sep c := by
  induction prs with
  | nil => rfl
  | cons pr prs ih =>
    rw [chainTokL_cons]
    simp only [subTok]
    exact ih

theorem applySubs_eq_joinT (prs : List (PyStr × PyStr))
    (h : ∀ pr ∈ prs, tokOK (Tok.word pr.2) = true) (s : PyStr) :
    applySubs prs s = joinT ((toks s).map (chainTokL prs)) := by
  induction prs generalizing s with
  | nil =>
    rw [applySubs_nil]
    have hmap : (toks s).map (chainTokL []) = toks s := by
      have : ∀ t ∈ toks s, chainTokL [] t = t := fun t _ => rfl
      rw [List.map_congr_left this]
      exact List.map_id' _
    rw [hmap, joinT_toks]
  | cons pr prs ih =>
    rw [applySubs_cons, ih (fun q hq => h q (List.mem_cons_of_mem _ hq)),
      toks_subWord (h pr (by simp)) s, List.map_map]
    rfl

theorem subWord_pyJoin (p r : PyStr) (ws : List PyStr) :
    subWord p r (pyJoin ws) = pyJoin (ws.map (subWord p r)) := by
  induction ws with
  | nil => simp [pyJoin_nil, subWord, toks, joinT_nil]
  | cons w ws ih =>
    cases ws with
    | nil => simp [pyJoin_single]
    | cons w' ws' =>
      have hsp : isWordChar ' ' = false := by decide
      rw [pyJoin_cons]
      unfold subWord
      rw [toks_append_of_sep hsp _ w, toks_sep_cons hsp, List.map_append,
        List.map_cons, joinT_append, joinT_cons]
      simp only [subTok, tokStr, List.singleton_append]
      unfold subWord at ih
      rw [ih]
      simp only [List.map_cons, pyJoin_cons]

theorem applySubs_pyJoin (prs : List (PyStr × PyStr)) (ws : List PyStr) :
    applySubs prs (pyJoin ws) = pyJoin (ws.map (applySubs prs)) := by
  induction prs generalizing ws with
  | nil =>
    rw [applySubs_nil]
    have hmap : ws.map (applySubs []) = ws := by
      have : ∀ w ∈ ws, applySubs [] w = w := fun w _ => rfl
      rw [List.map_congr_left this]
      exact List.map_id' _
    rw [hmap]
  | cons pr prs ih =>
    rw [applySubs_cons, subWord_pyJoin, ih, List.map_map]
    rfl

theorem toks_ne {s : PyStr} (h : s ≠ []) : toks s ≠ [] := by
  cases s with
  | nil => exact absurd rfl h
  | cons c cs =>
    cases cs with
    | nil => by_cases hc : isWordChar c <;> simp [toks, hc]
    | cons d cs' =>
      by_cases hc : isWordChar c
      · by_cases hd : isWordChar d
        · obtain ⟨w, ts, htd⟩ := toks_head_word hd cs'
          simp [toks, hc, hd, htd]
        · simp [toks, hc, hd]
      · simp [toks, hc]

theorem subWord_ne {p r s : PyStr} (hr : r ≠ []) (hs : s ≠ []) :
    subWord p r s ≠ [] := by
  obtain ⟨t, ts, hts⟩ : ∃ t ts, toks s = t :: ts := by
    rcases hh : toks s with _ | ⟨t, ts⟩
    · exact absurd hh (toks_ne hs)
    · exact ⟨t, ts, rfl⟩
  have hOK : tokOK t = true := (toks_WF s).1 t (by rw [hts]; simp)
  unfold subWord
  rw [hts, List.map_cons, joinT_cons]
  intro hcontra
  rcases List.append_eq_nil.mp hcontra with ⟨h1, _⟩
  cases t with
  | word w =>
    simp only [subTok] at h1
    split at h1
    · exact hr (by simpa [tokStr] using h1)
    · have hwne : w ≠ [] := by
        simp only [tokOK, Bool.and_eq_true] at hOK
        intro hw
        subst hw
        simp [List.isEmpty] at hOK
      exact hwne (by simpa [tokStr] using h1)
  | sep c => simp [tokStr, subTok] at h1

theorem applySubs_ne (prs : List (PyStr × PyStr)) (h : ∀ pr ∈ prs, pr.2 ≠ [])
    {s : PyStr} (hs : s ≠ []) : applySubs prs s ≠ [] := by
  induction prs generalizing s with
  | nil => simpa [applySubs_nil] using hs
  | cons pr prs ih =>
    rw [applySubs_cons]
    exact ih (fun q hq => h q (List.mem_cons_of_mem _ hq))
      (subWord_ne (h pr (by simp)) hs)

theorem mem_joinT {c : Char} {ts : List Tok} :
    c ∈ joinT ts ↔ ∃ t ∈ ts, c ∈ tokStr t := by
  simp [joinT, List.mem_flatten, List.mem_map]

theorem mem_of_mem_toks {c : Char} {t : Tok} {s : PyStr}
    (ht : t ∈ toks s) (hc : c ∈ tokStr t) : c ∈ s := by
  have : c ∈ joinT (toks s) := mem_joinT.mpr ⟨t, ht, hc⟩
  rwa [joinT_toks] at this

theorem subWord_chars {p r s : PyStr} {c : Char} (h : c ∈ subWord p r s) :
    c ∈ s ∨ c ∈ r := by
  unfold subWord at h
  obtain ⟨t, ht, hc⟩ := mem_joinT.mp h
  obtain ⟨u, hu, rfl⟩ := List.mem_map.mp ht
  cases u with
  | word w =>
    simp only [subTok] at hc
    split at hc
    · exact Or.inr (by simpa [tokStr] using hc)
    · exact Or.inl (mem_of_mem_toks hu (by simpa [tokStr] using hc))
  | sep e => exact Or.inl (mem_of_mem_toks hu (by simpa [tokStr, subTok] using hc))

theorem applySubs_chars (prs : List (PyStr × PyStr)) {s : PyStr} {c : Char}
    (h : c ∈ applySubs prs s) : c ∈ s ∨ ∃ pr ∈ prs, c ∈ pr.2 := by
  induction prs generalizing s with
  | nil => exact Or.inl (by simpa [applySubs_nil] using h)
  | cons pr prs ih =>
    rw [applySubs_cons] at h
    rcases ih h with h' | ⟨q, hq, hcq⟩
    · rcases subWord_chars h' with h'' | h''
      · exact Or.inl h''
      · exact Or.inr ⟨pr, by simp, h''⟩
    · exact Or.inr ⟨q, List.mem_cons_of_mem _ hq, hcq⟩

/-! The composite per-word effect of the concrete substitution table. -/

theorem chainW_cons (pr : PyStr × PyStr) (prs : List (PyStr × PyStr)) (w : PyStr) :
    chainW (pr :: prs) w = chainW prs (if w = pr.1 then pr.2 else w) := rfl

theorem chainW_fix_gen (prs : List (PyStr × PyStr)) (w : PyStr)
    (h : ∀ pr ∈ prs, w ≠ pr.1) : chainW prs w = w := by
  induction prs with
  | nil => rfl
  | cons pr prs ih =>
    rw [chainW_cons, if_neg (h pr (by simp))]
    exact ih (fun q hq => h q (List.mem_cons_of_mem _ hq))

theorem chainW_fix (w : PyStr)
    (h1 : w ≠ "ST".toList) (h2 : w ≠ "AVE".toList) (h3 : w ≠ "RD".toList)
    (h4 : w ≠ "DR".toList) (h5 : w ≠ "LN".toList) (h6 : w ≠ "CT".toList)
    (h7 : w ≠ "APT".toList) (h8 : w ≠ "N".toList) (h9 : w ≠ "S".toList)
    (h10 : w ≠ "E".toList) (h11 : w ≠ "W".toList) (h12 : w ≠ "BLVD".toList)
    (h13 : w ≠ "CIR".toList) (h14 : w ≠ "PKWY".toList) (h15 : w ≠ "HWY".toList)
    (h16 : w ≠ "TX".toList) :
    chainW replacements w = w := by
  apply chainW_fix_gen
  intro pr hpr
  simp only [replacements, List.mem_cons, List.not_mem_nil, or_false] at hpr
  rcases hpr with rfl | rfl | rfl | rfl | rfl | rfl | rfl | rfl | rfl | rfl |
    rfl | rfl | rfl | rfl | rfl | rfl
  · exact h1
  · exact h2
  · exact h3
  · exact h4
  · exact h5
  · exact h6
  · exact h7
  · exact h8
  · exact h9
  · exact h10
  · exact h11
  · exact h12
  · exact h13
  · exact h14
  · exact h15
  · exact h16

theorem chainW_replacements_idem (w : PyStr) :
    chainW replacements (chainW replacements w) = chainW replacements w := by
  by_cases h1 : w = "ST".toList
  · subst h1; decide
  by_cases h2 : w = "AVE".toList
  · subst h2; decide
  by_cases h3 : w = "RD".toList
  · subst h3; decide
  by_cases h4 : w = "DR".toList
  · subst h4; decide
  by_cases h5 : w = "LN".toList
  · subst h5; decide
  by_cases h6 : w = "CT".toList
  · subst h6; decide
  by_cases h7 : w = "APT".toList
  · subst h7; decide
  by_cases h8 : w = "N".toList
  · subst h8; decide
  by_cases h9 : w = "S".toList
  · subst h9; decide
  by_cases h10 : w = "E".toList
  · subst h10; decide
  by_cases h11 : w = "W".toList
  · subst h11; decide
  by_cases h12 : w = "BLVD".toList
  · subst h12; decide
  by_cases h13 : w = "CIR".toList
  · subst h13; decide
  by_cases h14 : w = "PKWY".toList
  · subst h14; decide
  by_cases h15 : w = "HWY".toList
  · subst h15; decide
  by_cases h16 : w = "TX".toList
  · subst h16; decide
  have hfix := chainW_fix w h1 h2 h3 h4 h5 h6 h7 h8 h9 h10 h11 h12 h13 h14 h15 h16
  rw [hfix, hfix]

theorem chainW_replacements_wordOK {w : PyStr} (h : tokOK (Tok.word w) = true) :
    tokOK (Tok.word (chainW replacements w)) = true := by
  by_cases h1 : w = "ST".toList
  · subst h1; decide
  by_cases h2 : w = "AVE".toList
  · subst h2; decide
  by_cases h3 : w = "RD".toList
  · subst h3; decide
  by_cases h4 : w = "DR".toList
  · subst h4; decide
  by_cases h5 : w = "LN".toList
  · subst h5; decide
  by_cases h6 : w = "CT".toList
  · subst h6; decide
  by_cases h7 : w = "APT".toList
  · subst h7; decide
  by_cases h8 : w = "N".toList
  · subst h8; decide
  by_cases h9 : w = "S".toList
  · subst h9; decide
  by_cases h10 : w = "E".toList
  · subst h10; decide
  by_cases h11 : w = "W".toList
  · subst h11; decide
  by_cases h12 : w = "BLVD".toList
  · subst h12; decide
  by_cases h13 : w = "CIR".toList
  · subst h13; decide
  by_cases h14 : w = "PKWY".toList
  · subst h14; decide
  by_cases h15 : w = "HWY".toList
  · subst h15; decide
  by_cases h16 : w = "TX".toList
  · subst h16; decide
  rw [chainW_fix w h1 h2 h3 h4 h5 h6 h7 h8 h9 h10 h11 h12 h13 h14 h15 h16]
  exact h

theorem chainTokL_replacements_idem (t : Tok) :
    chainTokL replacements (chainTokL replacements t) = chainTokL replacements t := by
  cases t with
  | word w => rw [chainTokL_word, chainTokL_word, chainW_replacements_idem]
  | sep c => rw [chainTokL_sep, chainTokL_sep]

theorem isWordTok_chainTokL (prs : List (PyStr × PyStr)) (t : Tok) :
    isWordTok (chainTokL prs t) = isWordTok t := by
  cases t with
  | word w =>
    rw [chainTokL_word]
    rfl
  | sep c => rw [chainTokL_sep]


theorem WFtoks_map_chainTokL {ts : List Tok} (h : WFtoks ts) :
    WFtoks (ts.map (chainTokL replacements)) := by
  constructor
  · intro t ht
    obtain ⟨u, hu, rfl⟩ := List.mem_map.mp ht
    cases u with
    | word w =>
      rw [chainTokL_word]
      exact chainW_replacements_wordOK (h.1 _ hu)
    | sep c =>
      rw [chainTokL_sep]
      exact h.1 _ hu
  · rw [List.chain'_map]
    refine h.2.imp ?_
    intro a b hab
    rcases hab with hab | hab
    · exact Or.inl (by rw [isWordTok_chainTokL, hab])
    · exact Or.inr (by rw [isWordTok_chainTokL, hab])

theorem list_map_fixed {α : Type} (f : α → α) :
    ∀ (s : List α), (∀ c ∈ s, f c = c) → s.map f = s := by
  intro s h
  induction s with
  | nil => rfl
  | cons c cs ih =>
    rw [List.map_cons, h c (by simp), ih (fun e he => h e (List.mem_cons_of_mem _ he))]

/-- C5: address normalization is idempotent: for every address string `x`
    (including strings containing TX or TEXAS),
    `normalize_address(normalize_address(x)) = normalize_address(x)`. -/
theorem normalizeAddress_idem (a : PyStr) :
    normalizeAddress (normalizeAddress a) = normalizeAddress a := by
  by_cases ha : a = []
  · subst ha; rfl
  have hwsOK : ∀ w ∈ pySplit (a.map upperChar),
      w ≠ [] ∧ ∀ c ∈ w, pySpace c = false :=
    fun w hw => ⟨(pySplit_mem _ w hw).1, fun c hc => ((pySplit_mem _ w hw).2 c hc).1⟩
  have hN : normalizeAddress a
      = applySubs replacements (pyJoin (pySplit (a.map upperChar))) := by
    rw [normalizeAddress, if_neg ha]
  rw [hN]
  by_cases hne : applySubs replacements (pyJoin (pySplit (a.map upperChar))) = []
  · rw [hne]; rfl
  have hrepOK : ∀ pr ∈ replacements, tokOK (Tok.word pr.2) = true := by decide
  have hdist : applySubs replacements (pyJoin (pySplit (a.map upperChar)))
      = pyJoin ((pySplit (a.map upperChar)).map (applySubs replacements)) :=
    applySubs_pyJoin replacements _
  have hws'OK : ∀ w ∈ (pySplit (a.map upperChar)).map (applySubs replacements),
      w ≠ [] ∧ ∀ c ∈ w, pySpace c = false := by
    intro w' hw'
    obtain ⟨w, hw, rfl⟩ := List.mem_map.mp hw'
    obtain ⟨hne_w, hsp_w⟩ := hwsOK w hw
    refine ⟨applySubs_ne replacements (by decide) hne_w, ?_⟩
    intro c hc
    rcases applySubs_chars replacements hc with h | ⟨pr, hpr, hcpr⟩
    · exact hsp_w c h
    · have hall : ∀ pr ∈ replacements, ∀ c ∈ pr.2, isWordChar c = true := by decide
      exact word_not_space (hall pr hpr c hcpr)
  have hupper : (applySubs replacements (pyJoin (pySplit (a.map upperChar)))).map upperChar
      = applySubs replacements (pyJoin (pySplit (a.map upperChar))) := by
    apply list_map_fixed
    intro c hc
    rw [hdist] at hc
    rcases mem_pyJoin hc with rfl | ⟨w', hw', hcw⟩
    · decide
    · obtain ⟨w, hw, rfl⟩ := List.mem_map.mp hw'
      rcases applySubs_chars replacements hcw with h | ⟨pr, hpr, hcpr⟩
      · have hcu : c ∈ a.map upperChar := ((pySplit_mem _ w hw).2 c h).2
        obtain ⟨b, _, rfl⟩ := List.mem_map.mp hcu
        exact upperChar_idem b
      · have hall : ∀ pr ∈ replacements, ∀ c ∈ pr.2, upperChar c = c := by decide
        exact hall pr hpr c hcpr
  have hsplit_n : pySplit (applySubs replacements (pyJoin (pySplit (a.map upperChar))))
      = (pySplit (a.map upperChar)).map (applySubs replacements) := by
    rw [hdist]
    exact pySplit_pyJoin _ hws'OK
  have htoksn : toks (applySubs replacements (pyJoin (pySplit (a.map upperChar))))
      = (toks (pyJoin (pySplit (a.map upperChar)))).map (chainTokL replacements) := by
    rw [applySubs_eq_joinT replacements hrepOK]
    exact toks_joinT (WFtoks_map_chainTokL (toks_WF _))
  have hsubs : applySubs replacements
        (applySubs replacements (pyJoin (pySplit (a.map upperChar))))
      = applySubs replacements (pyJoin (pySplit (a.map upperChar))) := by
    rw [applySubs_eq_joinT replacements hrepOK
      (applySubs replacements (pyJoin (pySplit (a.map upperChar)))), htoksn, List.map_map]
    have hcomp : (toks (pyJoin (pySplit (a.map upperChar)))).map
          ((chainTokL replacements) ∘ (chainTokL replacements))
        = (toks (pyJoin (pySplit (a.map upperChar)))).map (chainTokL replacements) :=
      List.map_congr_left (fun t _ => chainTokL_replacements_idem t)
    rw [hcomp, ← applySubs_eq_joinT replacements hrepOK]
  rw [normalizeAddress, if_neg hne, hupper, hsplit_n, ← hdist, hsubs]

/-! Embedding of `GeocodingCache` (get / set, src/backend/geocoder.py). -/

/-- A geocoding result dict.  Optional fields model Python dict keys that
    may be absent. -/
structure GeoResult where
  lat : ℚ
  lng : ℚ
  displayName : PyStr
  source : Option PyStr := none
  relevance : Option ℚ := none
  fallback : Option PyStr := none
  originalAddress : Option PyStr := none
  cachedAt : Option PyStr := none
deriving DecidableEq, Repr

/-- The cache contents: normalized-address key to stored result.  Entries
    stored by `set` are nonempty dicts, so Python truthiness of a found
    entry coincides with `Option.isSome`. -/
abbrev Cache := PyStr → Option GeoResult

/-- Model of `startswith` on character lists (pattern first). -/
def startsWith : PyStr → PyStr → Bool
  | [], _ => true
  | _ :: _, [] => false
  | p :: ps, c :: cs => p == c && startsWith ps cs

/-- Model of Python `str.replace(pat, rep)` (left-to-right, non-overlapping),
    fuel-indexed to keep the recursion structural; `fuel ≥ s.length` gives
    the real semantics, and the pattern used in the code (' TEXAS ') is
    nonempty. -/
def listReplaceGo (pat rep : PyStr) : Nat → PyStr → PyStr
  | 0, s => s
  | Nat.succ fuel, s =>
    match s with
    | [] => []
    | c :: cs =>
      if pat ≠ [] ∧ startsWith pat s = true then
        rep ++ listReplaceGo pat rep fuel (s.drop pat.length)
      else c :: listReplaceGo pat rep fuel cs

/-- Model of Python `str.replace(pat, rep)`. -/
def listReplace (pat rep s : PyStr) : PyStr :=
  listReplaceGo pat rep s.length s

/-- The backward-compatibility lookup key of `GeocodingCache.get`:
    `normalized.replace(' TEXAS ', ' TX ')`. -/
def texasVariantKey (normalized : PyStr) : PyStr :=
  listReplace " TEXAS ".toList " TX ".toList normalized

/-- Embedding of `GeocodingCache.get`: try the fully-normalized key, then
    the TEXAS-abbreviated variant, then the verbatim input. -/
def cacheGet (cache : Cache) (address : PyStr) : Option GeoResult :=
  let normalized := normalizeAddress address
  match cache normalized with
  | some r => some r
  | none =>
    match cache (texasVariantKey normalized) with
    | some r => some r
    | none => cache address

/-- The metadata mutation performed by `GeocodingCache.set` on the stored
    (and, by aliasing, returned) result: `cached_at` is stamped and
    `source` defaults to `'unknown'` when absent. -/
def withMeta (now : PyStr) (r : GeoResult) : GeoResult :=
  { r with cachedAt := some now,
           source := match r.source with
                     | some s => some s
                     | none => some "unknown".toList }

/-- Embedding of `GeocodingCache.set`: store under the normalized key. -/
def cacheSet (cache : Cache) (address : PyStr) (result : GeoResult) (now : PyStr) : Cache :=
  fun k => if k = normalizeAddress address then some (withMeta now result) else cache k

/-- C3: after a `set`, a `get` with any tolerant form of the address (any
    string with the same normalized key) succeeds; `get` tries the
    normalized key first, then the TEXAS-to-TX variant, then the verbatim
    input, returning the first entry found, and returns None only when all
    three lookups miss. -/
theorem cacheGet_tolerant_lookup :
    (∀ (cache : Cache) (a b : PyStr) (e : GeoResult) (now : PyStr),
        normalizeAddress b = normalizeAddress a →
        cacheGet (cacheSet cache a e now) b = some (withMeta now e))
    ∧ (∀ (cache : Cache) (a : PyStr) (r : GeoResult),
        cache (normalizeAddress a) = some r → cacheGet cache a = some r)
    ∧ (∀ (cache : Cache) (a : PyStr) (r : GeoResult),
        cache (normalizeAddress a) = none →
        cache (texasVariantKey (normalizeAddress a)) = some r →
        cacheGet cache a = some r)
    ∧ (∀ (cache : Cache) (a : PyStr),
        cache (normalizeAddress a) = none →
        cache (texasVariantKey (normalizeAddress a)) = none →
        cacheGet cache a = cache a)
    ∧ (∀ (cache : Cache) (a : PyStr),
        cacheGet cache a = none ↔
          cache (normalizeAddress a) = none ∧
          cache (texasVariantKey (normalizeAddress a)) = none ∧
          cache a = none) := by
  refine ⟨?_, ?_, ?_, ?_, ?_⟩
  · intro cache a b e now hb
    simp [cacheGet, cacheSet, hb]
  · intro cache a r h
    unfold cacheGet
    simp only [h]
  · intro cache a r h1 h2
    unfold cacheGet
    simp only [h1, h2]
  · intro cache a h1 h2
    unfold cacheGet
    simp only [h1, h2]
  · intro cache a
    unfold cacheGet
    rcases h1 : cache (normalizeAddress a) with _ | r1
    · rcases h2 : cache (texasVariantKey (normalizeAddress a)) with _ | r2
      · simp [h1, h2]
      · simp [h1, h2]
    · simp [h1]

/-- Witness for C3 at a concrete cache and address: storing a result under
    "123 Main St, TX" and reading it back through the tolerant form
    "123 MAIN STREET, TEXAS". -/
theorem cacheGet_tolerant_lookup_witness :
    cacheGet
        (cacheSet (fun _ => none) "123 Main St, TX".toList
          { lat := 1, lng := 2, displayName := "x".toList } "T0".toList)
        "123 MAIN STREET, TEXAS".toList
      = some (withMeta "T0".toList { lat := 1, lng := 2, displayName := "x".toList }) := by
  exact cacheGet_tolerant_lookup.1 (fun _ => none) "123 Main St, TX".toList
    "123 MAIN STREET, TEXAS".toList
    { lat := 1, lng := 2, displayName := "x".toList } "T0".toList (by decide)

/-! Embedding of the multi-provider orchestrator `NominatimGeocoder.geocode`
    (src/backend/geocoder.py lines 718-815).  The AWS / Census / Photon
    providers are modelled as oracles `PyStr → Option GeoResult` (a `none`
    covers both "no match" and any transport error, exactly as every
    provider's `geocode` converts errors to `None`), each with its own
    `api_calls` / `failures` counters.  Nominatim is modelled down to the
    HTTP level because its retry behaviour is part of the claims. -/

/-- A provider with its diagnostics counters
    (`CensusGeocoder` / `PhotonGeocoder` shape). -/
structure ProviderState where
  behavior : PyStr → Option GeoResult
  apiCalls : Nat := 0
  failures : Nat := 0

/-- One provider call: one oracle consultation, `api_calls` always
    incremented, `failures` incremented exactly on a `None`. -/
def provCall (p : ProviderState) (a : PyStr) : Option GeoResult × ProviderState :=
  match p.behavior a with
  | some r => (some r, { p with apiCalls := p.apiCalls + 1 })
  | none => (none, { p with apiCalls := p.apiCalls + 1, failures := p.failures + 1 })

/-- `AWSLocationGeocoder`: like the other providers but guarded by the
    configured-client check (`if not self.client: return None`). -/
structure AwsState where
  client : Bool
  behavior : PyStr → Option GeoResult
  apiCalls : Nat := 0
  failures : Nat := 0

def awsCall (p : AwsState) (a : PyStr) : Option GeoResult × AwsState :=
  if p.client = false then (none, p)
  else
    match p.behavior a with
    | some r => (some r, { p with apiCalls := p.apiCalls + 1 })
    | none => (none, { p with apiCalls := p.apiCalls + 1, failures := p.failures + 1 })

/-- One raw Nominatim hit (`lat` / `lon` / `display_name`). -/
structure NomItem where
  lat : ℚ
  lng : ℚ
  displayName : PyStr
deriving DecidableEq, Repr

/-- Outcome of one HTTP request to Nominatim as seen by `_call_nominatim`. -/
inductive NomResp where
  | status (code : Nat) (results : List NomItem)
  | timeout
  | reqError
deriving DecidableEq, Repr

/-- Exponential backoff of `_call_nominatim`: `(2 ** retry_count) * 2`. -/
def nomBackoffDelay (rc : Nat) : Nat := 2 ^ rc * 2

/-- Embedding of `NominatimGeocoder._call_nominatim`.  The oracle gives the
    response of the attempt with a given retry count; the result carries
    the number of HTTP requests made and the list of backoff delays slept.
    `remaining` is the number of retries still allowed; the source guard
    `retry_count < 3` corresponds to `remaining > 0` for the initial call
    `remaining = 3`, since `retry_count + remaining = 3` throughout. -/
def callNominatimAux (h : Nat → NomResp) : Nat → Nat → Option GeoResult × Nat × List Nat
  | rc, remaining =>
    match h rc with
    | NomResp.timeout => (none, 1, [])
    | NomResp.reqError => (none, 1, [])
    | NomResp.status code results =>
      if code = 429 then
        match remaining with
        | 0 => (none, 1, [])
        | remaining' + 1 =>
          let res := callNominatimAux h (rc + 1) remaining'
          (res.1, res.2.1 + 1, nomBackoffDelay rc :: res.2.2)
      else if code ≠ 200 then (none, 1, [])
      else
        match results with
        | [] => (none, 1, [])
        | item :: _ =>
          (some { lat := item.lat, lng := item.lng, displayName := item.displayName }, 1, [])

/-- `_call_nominatim(address)` entry point (`retry_count = 0`, 3 retries). -/
def callNominatim (h : Nat → NomResp) : Option GeoResult × Nat × List Nat :=
  callNominatimAux h 0 3

/-- The orchestrator state: cache handle, provider states, the Nominatim
    HTTP oracle (per address and retry count), the rate-limiter wait
    counter, the orchestrator statistics, and the timestamp used for cache
    metadata. -/
structure OrchStats where
  apiCalls : Nat := 0
  cacheHits : Nat := 0
  failures : Nat := 0
  awsSuccess : Nat := 0
  censusSuccess : Nat := 0
  photonSuccess : Nat := 0
  nominatimSuccess : Nat := 0
  zipFallbackSuccess : Nat := 0
deriving DecidableEq, Repr

structure Orchestrator where
  cache : Cache
  aws : AwsState
  census : ProviderState
  photon : ProviderState
  nominatimHttp : PyStr → Nat → NomResp
  rateWaits : Nat := 0
  stats : OrchStats := {}
  now : PyStr := []

/-- Leading-boundary test for the ZIP regex scan: the previous character is
    absent (string start) or a non-word character. -/
def zipBoundaryLeft : Option Char → Bool
  | none => true
  | some p => !isWordChar p

/-- Right boundary: end of string or a non-word character. -/
def zipBoundaryRight : PyStr → Bool
  | [] => true
  | r :: _ => !isWordChar r

/-- Take exactly five leading digits. -/
def takeDigits5 : PyStr → Option (PyStr × PyStr)
  | d1 :: d2 :: d3 :: d4 :: d5 :: rest =>
    if d1.isDigit && d2.isDigit && d3.isDigit && d4.isDigit && d5.isDigit then
      some ([d1, d2, d3, d4, d5], rest)
    else none
  | _ => none

/-- Leftmost-match scan for the five-digit group, tracking the previous
    character for the left word boundary. -/
def findZipFrom : Option Char → PyStr → Option PyStr
  | _, [] => none
  | prev, c :: cs =>
    (if zipBoundaryLeft prev then
      match takeDigits5 (c :: cs) with
      | some (z, rest) => if zipBoundaryRight rest then some z else findZipFrom (some c) cs
      | none => findZipFrom (some c) cs
    else findZipFrom (some c) cs)

/-- Model of `re.search(r'\b(\d{5})\b', address)` returning the group. -/
def findZip (address : PyStr) : Option PyStr :=
  findZipFrom none address

/-- The fallback query string `f"{zip_code}, Texas, USA"`. -/
def zipQuery (z : PyStr) : PyStr := z ++ ", Texas, USA".toList

/-- The ZIP-fallback provider chain (geocoder.py lines 786-803): AWS when
    configured, then Census, then Photon, then rate-limited Nominatim. -/
def zipChain (o : Orchestrator) (zipAddress : PyStr) : Option GeoResult × Orchestrator :=
  if o.aws.client then
    match awsCall o.aws zipAddress with
    | (some r, aws') => (some r, { o with aws := aws' })
    | (none, aws') => zipChainCensus { o with aws := aws' } zipAddress
  else zipChainCensus o zipAddress
where
  zipChainCensus (o : Orchestrator) (zipAddress : PyStr) : Option GeoResult × Orchestrator :=
    match provCall o.census zipAddress with
    | (some r, cen') => (some r, { o with census := cen' })
    | (none, cen') => zipChainPhoton { o with census := cen' } zipAddress
  zipChainPhoton (o : Orchestrator) (zipAddress : PyStr) : Option GeoResult × Orchestrator :=
    match provCall o.photon zipAddress with
    | (some r, ph') => (some r, { o with photon := ph' })
    | (none, ph') => zipChainNominatim { o with photon := ph' } zipAddress
  zipChainNominatim (o : Orchestrator) (zipAddress : PyStr) : Option GeoResult × Orchestrator :=
    let o1 := { o with rateWaits := o.rateWaits + 1 }
    let res := callNominatim (o1.nominatimHttp zipAddress)
    let o2 := { o1 with stats := { o1.stats with apiCalls := o1.stats.apiCalls + res.2.1 } }
    match res.1 with
    | some r => (some { r with source := some "nominatim".toList }, o2)
    | none => (none, o2)

/-- The terminal stage of `geocode` (lines 779-815): ZIP fallback when a
    five-digit postal code is present, otherwise (or when the fallback
    chain also fails) overall failure and `stats['failures'] += 1`. -/
def geocodeZipStage (o : Orchestrator) (address : PyStr) : Option GeoResult × Orchestrator :=
  match findZip address with
  | none => (none, { o with stats := { o.stats with failures := o.stats.failures + 1 } })
  | some z =>
    match zipChain o (zipQuery z) with
    | (some r, o') =>
      let r' := { r with fallback := some "zip_code".toList, originalAddress := some address }
      let o'' := { o' with stats :=
        { o'.stats with zipFallbackSuccess := o'.stats.zipFallbackSuccess + 1 } }
      (some (withMeta o''.now r'), { o'' with cache := cacheSet o''.cache address r' o''.now })
    | (none, o') => (none, { o' with stats := { o'.stats with failures := o'.stats.failures + 1 } })

/-- Stage 5 of `geocode`: rate-limited Nominatim. -/
def geocodeNominatimStage (o : Orchestrator) (address : PyStr) : Option GeoResult × Orchestrator :=
  let o1 := { o with rateWaits := o.rateWaits + 1 }
  let res := callNominatim (o1.nominatimHttp address)
  let o2 := { o1 with stats := { o1.stats with apiCalls := o1.stats.apiCalls + res.2.1 } }
  match res.1 with
  | some r =>
    let o3 := { o2 with stats :=
      { o2.stats with nominatimSuccess := o2.stats.nominatimSuccess + 1 } }
    let r' := { r with source := some "nominatim".toList }
    (some (withMeta o3.now r'), { o3 with cache := cacheSet o3.cache address r' o3.now })
  | none => geocodeZipStage o2 address

/-- Stage 4 of `geocode`: Photon. -/
def geocodePhotonStage (o : Orchestrator) (address : PyStr) : Option GeoResult × Orchestrator :=
  match provCall o.photon address with
  | (some r, ph') =>
    let o1 := { o with photon := ph', stats :=
      { o.stats with photonSuccess := o.stats.photonSuccess + 1 } }
    (some (withMeta o1.now r), { o1 with cache := cacheSet o1.cache address r o1.now })
  | (none, ph') => geocodeNominatimStage { o with photon := ph' } address

/-- Stage 3 of `geocode`: US Census. -/
def geocodeCensusStage (o : Orchestrator) (address : PyStr) : Option GeoResult × Orchestrator :=
  match provCall o.census address with
  | (some r, cen') =>
    let o1 := { o with census := cen', stats :=
      { o.stats with censusSuccess := o.stats.censusSuccess + 1 } }
    (some (withMeta o1.now r), { o1 with cache := cacheSet o1.cache address r o1.now })
  | (none, cen') => geocodePhotonStage { o with census := cen' } address

/-- Stage 2 of `geocode`: AWS Location Service, tried only when the client
    is configured. -/
def geocodeAwsStage (o : Orchestrator) (address : PyStr) : Option GeoResult × Orchestrator :=
  if o.aws.client then
    match awsCall o.aws address with
    | (some r, aws') =>
      let o1 := { o with aws := aws', stats :=
        { o.stats with awsSuccess := o.stats.awsSuccess + 1 } }
      (some (withMeta o1.now r), { o1 with cache := cacheSet o1.cache address r o1.now })
    | (none, aws') => geocodeCensusStage { o with aws := aws' } address
  else geocodeCensusStage o address

/-- Embedding of `NominatimGeocoder.geocode`: cache, then the provider
    chain, then the ZIP fallback, then overall failure.  Successful results
    are cached keyed by the original address; by dict aliasing the returned
    dict carries the metadata `set` adds. -/
def geocode (o : Orchestrator) (address : PyStr) : Option GeoResult × Orchestrator :=
  match cacheGet o.cache address with
  | some cached =>
    (some cached, { o with stats := { o.stats with cacheHits := o.stats.cacheHits + 1 } })
  | none => geocodeAwsStage o address

/-- C1: on a cache miss the orchestrator tries AWS Location, Census,
    Photon, then rate-limited Nominatim, in that fixed order,
    short-circuiting on the first provider that returns a result: the
    returned value is that provider's result and no later provider in the
    chain is consulted (their call counters are unchanged); when every
    provider and the ZIP fallback fail, `geocode` returns None and the
    orchestrator's failure counter increments by exactly one. -/
theorem geocode_provider_chain (o : Orchestrator) (address : PyStr)
    (hmiss : cacheGet o.cache address = none)
    (hcli : o.aws.client = true) :
    (∀ r, o.aws.behavior address = some r →
      (geocode o address).1 = some (withMeta o.now r)
      ∧ (geocode o address).2.census.apiCalls = o.census.apiCalls
      ∧ (geocode o address).2.photon.apiCalls = o.photon.apiCalls
      ∧ (geocode o address).2.stats.apiCalls = o.stats.apiCalls)
    ∧ (∀ r, o.aws.behavior address = none → o.census.behavior address = some r →
      (geocode o address).1 = some (withMeta o.now r)
      ∧ (geocode o address).2.photon.apiCalls = o.photon.apiCalls
      ∧ (geocode o address).2.stats.apiCalls = o.stats.apiCalls)
    ∧ (∀ r, o.aws.behavior address = none → o.census.behavior address = none →
        o.photon.behavior address = some r →
      (geocode o address).1 = some (withMeta o.now r)
      ∧ (geocode o address).2.stats.apiCalls = o.stats.apiCalls)
    ∧ (∀ r, o.aws.behavior address = none → o.census.behavior address = none →
        o.photon.behavior address = none →
        (callNominatim (o.nominatimHttp address)).1 = some r →
      (geocode o address).1
        = some (withMeta o.now { r with source := some "nominatim".toList }))
    ∧ (o.aws.behavior address = none → o.census.behavior address = none →
        o.photon.behavior address = none →
        (callNominatim (o.nominatimHttp address)).1 = none →
        (∀ z, findZip address = some z →
          o.aws.behavior (zipQuery z) = none ∧ o.census.behavior (zipQuery z) = none ∧
          o.photon.behavior (zipQuery z) = none ∧
          (callNominatim (o.nominatimHttp (zipQuery z))).1 = none) →
      (geocode o address).1 = none
      ∧ (geocode o address).2.stats.failures = o.stats.failures + 1) := by
  refine ⟨?_, ?_, ?_, ?_, ?_⟩
  · intro r haws
    simp [geocode, hmiss, geocodeAwsStage, hcli, awsCall, haws]
  · intro r haws hcen
    simp [geocode, hmiss, geocodeAwsStage, hcli, awsCall, haws,
      geocodeCensusStage, provCall, hcen]
  · intro r haws hcen hpho
    simp [geocode, hmiss, geocodeAwsStage, hcli, awsCall, haws,
      geocodeCensusStage, provCall, hcen, geocodePhotonStage, hpho]
  · intro r haws hcen hpho hnom
    simp [geocode, hmiss, geocodeAwsStage, hcli, awsCall, haws,
      geocodeCensusStage, provCall, hcen, geocodePhotonStage, hpho,
      geocodeNominatimStage, hnom]
  · intro haws hcen hpho hnom hfb
    rcases hz : findZip address with _ | z
    · simp [geocode, hmiss, geocodeAwsStage, hcli, awsCall, haws,
        geocodeCensusStage, provCall, hcen, geocodePhotonStage, hpho,
        geocodeNominatimStage, hnom, geocodeZipStage, hz]
    · obtain ⟨hfa, hfc, hfp, hfn⟩ := hfb z hz
      simp [geocode, hmiss, geocodeAwsStage, hcli, awsCall, haws,
        geocodeCensusStage, provCall, hcen, geocodePhotonStage, hpho,
        geocodeNominatimStage, hnom, geocodeZipStage, hz, zipChain,
        zipChain.zipChainCensus, zipChain.zipChainPhoton, zipChain.zipChainNominatim,
        hfa, hfc, hfp, hfn]

/-- Witness for C1: a configured orchestrator whose providers all fail on
    an address with no postal code returns None with failures going from
    zero to one. -/
theorem geocode_provider_chain_witness :
    (geocode
        { cache := fun _ => none
        , aws := { client := true, behavior := fun _ => none }
        , census := { behavior := fun _ => none }
        , photon := { behavior := fun _ => none }
        , nominatimHttp := fun _ _ => NomResp.status 404 [] }
        "A".toList).1 = none
    ∧ (geocode
        { cache := fun _ => none
        , aws := { client := true, behavior := fun _ => none }
        , census := { behavior := fun _ => none }
        , photon := { behavior := fun _ => none }
        , nominatimHttp := fun _ _ => NomResp.status 404 [] }
        "A".toList).2.stats.failures = 0 + 1 := by
  have h := geocode_provider_chain
    { cache := fun _ => none
    , aws := { client := true, behavior := fun _ => none }
    , census := { behavior := fun _ => none }
    , photon := { behavior := fun _ => none }
    , nominatimHttp := fun _ _ => NomResp.status 404 [] }
    "A".toList rfl rfl
  refine h.2.2.2.2 rfl rfl rfl rfl ?_
  intro z hz
  rw [show findZip "A".toList = (none : Option PyStr) from rfl] at hz
  cases hz

/-- C4: when the whole provider chain fails on an address containing a
    five-digit postal code, the chain is retried on the query
    `"{zip}, Texas, USA"` in provider priority order; a successful fallback
    result is tagged `fallback = zip_code`, carries the original
    (pre-fallback) address, and is written into the cache keyed by the
    original address. -/
theorem geocode_zip_fallback (o : Orchestrator) (address z : PyStr)
    (hmiss : cacheGet o.cache address = none)
    (hcli : o.aws.client = true)
    (haws : o.aws.behavior address = none)
    (hcen : o.census.behavior address = none)
    (hpho : o.photon.behavior address = none)
    (hnom : (callNominatim (o.nominatimHttp address)).1 = none)
    (hz : findZip address = some z) :
    (∀ r, o.aws.behavior (zipQuery z) = some r →
      (geocode o address).1 = some (withMeta o.now
        { r with fallback := some "zip_code".toList, originalAddress := some address })
      ∧ (geocode o address).2.cache (normalizeAddress address) = some (withMeta o.now
        { r with fallback := some "zip_code".toList, originalAddress := some address }))
    ∧ (∀ r, o.aws.behavior (zipQuery z) = none →
        o.census.behavior (zipQuery z) = some r →
      (geocode o address).1 = some (withMeta o.now
        { r with fallback := some "zip_code".toList, originalAddress := some address })
      ∧ (geocode o address).2.cache (normalizeAddress address) = some (withMeta o.now
        { r with fallback := some "zip_code".toList, originalAddress := some address }))
    ∧ (∀ r, o.aws.behavior (zipQuery z) = none →
        o.census.behavior (zipQuery z) = none →
        o.photon.behavior (zipQuery z) = some r →
      (geocode o address).1 = some (withMeta o.now
        { r with fallback := some "zip_code".toList, originalAddress := some address })
      ∧ (geocode o address).2.cache (normalizeAddress address) = some (withMeta o.now
        { r with fallback := some "zip_code".toList, originalAddress := some address }))
    ∧ (∀ r, o.aws.behavior (zipQuery z) = none →
        o.census.behavior (zipQuery z) = none →
        o.photon.behavior (zipQuery z) = none →
        (callNominatim (o.nominatimHttp (zipQuery z))).1 = some r →
      (geocode o address).1 = some (withMeta o.now
        { r with source := some "nominatim".toList,
                 fallback := some "zip_code".toList, originalAddress := some address })
      ∧ (geocode o address).2.cache (normalizeAddress address) = some (withMeta o.now
        { r with source := some "nominatim".toList,
                 fallback := some "zip_code".toList, originalAddress := some address })) := by
  refine ⟨?_, ?_, ?_, ?_⟩
  · intro r hfa
    simp [geocode, hmiss, geocodeAwsStage, hcli, awsCall, haws,
      geocodeCensusStage, provCall, hcen, geocodePhotonStage, hpho,
      geocodeNominatimStage, hnom, geocodeZipStage, hz, zipChain, hfa, cacheSet]
  · intro r hfa hfc
    simp [geocode, hmiss, geocodeAwsStage, hcli, awsCall, haws,
      geocodeCensusStage, provCall, hcen, geocodePhotonStage, hpho,
      geocodeNominatimStage, hnom, geocodeZipStage, hz, zipChain,
      zipChain.zipChainCensus, hfa, hfc, cacheSet]
  · intro r hfa hfc hfp
    simp [geocode, hmiss, geocodeAwsStage, hcli, awsCall, haws,
      geocodeCensusStage, provCall, hcen, geocodePhotonStage, hpho,
      geocodeNominatimStage, hnom, geocodeZipStage, hz, zipChain,
      zipChain.zipChainCensus, zipChain.zipChainPhoton, hfa, hfc, hfp, cacheSet]
  · intro r hfa hfc hfp hfn
    simp [geocode, hmiss, geocodeAwsStage, hcli, awsCall, haws,
      geocodeCensusStage, provCall, hcen, geocodePhotonStage, hpho,
      geocodeNominatimStage, hnom, geocodeZipStage, hz, zipChain,
      zipChain.zipChainCensus, zipChain.zipChainPhoton, zipChain.zipChainNominatim,
      hfa, hfc, hfp, hfn, cacheSet]

/-- Witness for C4: all providers fail on "100 OAK 78501" but Census
    resolves the ZIP query, and the tagged result lands in the cache under
    the original address's normalized key. -/
theorem geocode_zip_fallback_witness :
    (geocode
        { cache := fun _ => none
        , aws := { client := true, behavior := fun _ => none }
        , census := { behavior := fun a =>
            (if a = zipQuery "78501".toList then
              some { lat := 26, lng := -98, displayName := "78501".toList,
                     source := some "census".toList }
            else none) }
        , photon := { behavior := fun _ => none }
        , nominatimHttp := fun _ _ => NomResp.status 404 [] }
        "100 OAK 78501".toList).1
      = some (withMeta []
          { lat := 26, lng := -98, displayName := "78501".toList,
            source := some "census".toList,
            fallback := some "zip_code".toList,
            originalAddress := some "100 OAK 78501".toList }) := by
  have h := geocode_zip_fallback
    { cache := fun _ => none
    , aws := { client := true, behavior := fun _ => none }
    , census := { behavior := fun a =>
        (if a = zipQuery "78501".toList then
          some { lat := 26, lng := -98, displayName := "78501".toList,
                 source := some "census".toList }
        else none) }
    , photon := { behavior := fun _ => none }
    , nominatimHttp := fun _ _ => NomResp.status 404 [] }
    "100 OAK 78501".toList "78501".toList rfl rfl rfl (by decide) rfl rfl (by decide)
  have hr := h.2.1 { lat := 26, lng := -98, displayName := "78501".toList, source := some "census".toList } (by decide) (by decide)
  exact hr.1

/-! HTTP-level model of the Census provider (`CensusGeocoder.geocode`),
    used for the fail-fast part of C6: it issues exactly one request per
    call and converts any error to `None`. -/

structure CensusMatch where
  x : ℚ
  y : ℚ
  matchedAddress : Option PyStr
deriving DecidableEq, Repr

inductive CensusResp where
  | status (code : Nat) (found : List CensusMatch)
  | timeout
  | reqError
  | exn
deriving DecidableEq, Repr

/-- Embedding of `CensusGeocoder.geocode` over one HTTP outcome: the result
    plus the increments of `api_calls` and `failures`. -/
def censusGeocodeHttp (resp : CensusResp) (address : PyStr) : Option GeoResult × Nat × Nat :=
  match resp with
  | CensusResp.status code ms =>
    if code ≠ 200 then (none, 1, 1)
    else
      match ms with
      | [] => (none, 1, 1)
      | m :: _ =>
        (some { lat := m.y, lng := m.x,
                displayName := match m.matchedAddress with | some s => s | none => address,
                source := some "census".toList }, 1, 0)
  | CensusResp.timeout => (none, 1, 1)
  | CensusResp.reqError => (none, 1, 1)
  | CensusResp.exn => (none, 1, 1)

theorem callNominatimAux_calls_le (h : Nat → NomResp) :
    ∀ (remaining rc : Nat), (callNominatimAux h rc remaining).2.1 ≤ remaining + 1 := by
  intro remaining
  induction remaining with
  | zero =>
    intro rc
    cases hh : h rc with
    | status code results =>
      simp only [callNominatimAux, hh]
      split
      · simp
      · split
        · simp
        · cases results <;> simp
    | timeout => simp [callNominatimAux, hh]
    | reqError => simp [callNominatimAux, hh]
  | succ rem ih =>
    intro rc
    cases hh : h rc with
    | status code results =>
      simp only [callNominatimAux, hh]
      split
      · have := ih (rc + 1)
        simp only []
        omega
      · split
        · simp
        · cases results <;> simp
    | timeout => simp [callNominatimAux, hh]
    | reqError => simp [callNominatimAux, hh]

theorem callNominatimAux_delays (h : Nat → NomResp) :
    ∀ (remaining rc : Nat), ∃ k ≤ remaining,
      (callNominatimAux h rc remaining).2.2 = (List.range' rc k).map nomBackoffDelay := by
  intro remaining
  induction remaining with
  | zero =>
    intro rc
    refine ⟨0, le_refl 0, ?_⟩
    cases hh : h rc with
    | status code results =>
      simp only [callNominatimAux, hh]
      split
      · simp
      · split
        · simp
        · cases results <;> simp
    | timeout => simp [callNominatimAux, hh]
    | reqError => simp [callNominatimAux, hh]
  | succ rem ih =>
    intro rc
    cases hh : h rc with
    | status code results =>
      by_cases h429 : code = 429
      · obtain ⟨k, hk, hdel⟩ := ih (rc + 1)
        refine ⟨k + 1, by omega, ?_⟩
        simp only [callNominatimAux, hh, if_pos h429]
        rw [show List.range' rc (k + 1) = rc :: List.range' (rc + 1) k from rfl]
        simp [hdel]
      · refine ⟨0, by omega, ?_⟩
        simp only [callNominatimAux, hh, if_neg h429]
        split
        · simp
        · cases results <;> simp
    | timeout => exact ⟨0, by omega, by simp [callNominatimAux, hh]⟩
    | reqError => exact ⟨0, by omega, by simp [callNominatimAux, hh]⟩

/-- C6: the Nominatim provider retries a rate-limited (HTTP 429) request at
    most 3 times, with doubling delays 2s, 4s, 8s; when the retries are
    exhausted it returns None (a geocode miss) instead of raising; all
    other providers issue exactly one request per call and convert every
    error to None with no retry. -/
theorem nominatimRetry_and_failFast :
    (∀ h : Nat → NomResp, (callNominatim h).2.1 ≤ 4)
    ∧ (∀ h : Nat → NomResp, ∃ k ≤ 3, (callNominatim h).2.2 = List.take k [2, 4, 8])
    ∧ (∀ h : Nat → NomResp, (∀ i, ∃ rs, h i = NomResp.status 429 rs) →
        callNominatim h = (none, 4, [2, 4, 8]))
    ∧ (∀ (resp : CensusResp) (address : PyStr),
        (censusGeocodeHttp resp address).2.1 = 1
        ∧ (∀ code ms, resp = CensusResp.status code ms → code ≠ 200 →
            (censusGeocodeHttp resp address).1 = none)
        ∧ ((resp = CensusResp.timeout ∨ resp = CensusResp.reqError ∨ resp = CensusResp.exn) →
            (censusGeocodeHttp resp address).1 = none)) := by
  refine ⟨?_, ?_, ?_, ?_⟩
  · intro h
    exact callNominatimAux_calls_le h 3 0
  · intro h
    obtain ⟨k, hk, hdel⟩ := callNominatimAux_delays h 3 0
    refine ⟨k, hk, ?_⟩
    rw [callNominatim, hdel]
    interval_cases k <;> decide
  · intro h hrl
    obtain ⟨rs0, h0⟩ := hrl 0
    obtain ⟨rs1, h1⟩ := hrl 1
    obtain ⟨rs2, h2⟩ := hrl 2
    obtain ⟨rs3, h3⟩ := hrl 3
    simp [callNominatim, callNominatimAux, h0, h1, h2, h3, nomBackoffDelay]
  · intro resp address
    refine ⟨?_, ?_, ?_⟩
    · cases resp with
      | status code ms =>
        simp only [censusGeocodeHttp]
        split
        · rfl
        · cases ms with
          | nil => rfl
          | cons m ms' => rfl
      | timeout => rfl
      | reqError => rfl
      | exn => rfl
    · rintro code ms rfl hne
      simp [censusGeocodeHttp, hne]
    · rintro (rfl | rfl | rfl) <;> rfl

/-- Witness for C6: a provider that is rate-limited on every attempt makes
    four HTTP requests (one initial plus three retries with delays
    2s, 4s, 8s) and degrades to a miss. -/
theorem nominatimRetry_and_failFast_witness :
    callNominatim (fun _ => NomResp.status 429 []) = (none, 4, [2, 4, 8]) :=
  nominatimRetry_and_failFast.2.2.1 _ (fun _ => ⟨[], rfl⟩)

/-! Embedding of `CrossReferenceEngine.get_previous_party` and
    `_extract_current_party_from_row` (src/backend/processor.py 182-258). -/

/-- Model of Python `str.strip()`. -/
def pyStrip (s : PyStr) : PyStr :=
  ((s.dropWhile pySpace).reverse.dropWhile pySpace).reverse

/-- Model of Python `str.upper()`. -/
def pyUpper (s : PyStr) : PyStr :=
  s.map upperChar

/-- Model of Python `needle in hay` substring containment. -/
def containsSub (needle hay : PyStr) : Bool :=
  match hay with
  | [] => needle.isEmpty
  | _ :: t => startsWith needle hay || containsSub needle t

/-- Model of Python `round(x, 4)`.  (Python uses round-half-to-even on
    floats; the tie-breaking rule is not exercised by any claim.) -/
def pyRound4 (x : ℚ) : ℚ :=
  ((round (x * 10000) : ℤ) : ℚ) / 10000

/-- Association-list lookup, modelling Python `key in dict` / `dict[key]`. -/
def lookupAssoc {α β : Type} [DecidableEq α] : List (α × β) → α → Option β
  | [], _ => none
  | (k', v') :: rest, k => if k' = k then some v' else lookupAssoc rest k

/-- A current-dataset voter row as accessed by the cross-reference engine;
    Python `row.get(key, '')` makes a missing field indistinguishable from
    the empty string. -/
structure VoterRow where
  vuid : PyStr := []
  lastname : PyStr := []
  firstname : PyStr := []
  lat : ℚ := 0
  lng : ℚ := 0
  partyAffiliationCurrent : PyStr := []
  party : PyStr := []
  ballotStyle : PyStr := []
deriving DecidableEq, Repr

/-- Embedding of `CrossReferenceEngine._extract_current_party_from_row`. -/
def extractCurrentPartyFromRow (row : VoterRow) : PyStr :=
  let pac := row.partyAffiliationCurrent
  if pac ≠ [] ∧ pyStrip pac ≠ [] then pyStrip pac
  else
    let pv := row.party
    if pv ≠ [] ∧ pyStrip pv ≠ [] then
      let code := pyUpper (pyStrip pv)
      if code = "D".toList ∨ code = "DEM".toList ∨ code = "DEMOCRAT".toList ∨
          code = "DEMOCRATIC".toList then "Democratic".toList
      else if code = "R".toList ∨ code = "REP".toList ∨ code = "REPUBLICAN".toList then
        "Republican".toList
      else code
    else
      let b0 := row.ballotStyle
      if b0 ≠ [] ∧ pyStrip b0 ≠ [] then
        let b := pyUpper (pyStrip b0)
        if containsSub "REP".toList b || containsSub "REPUBLICAN".toList b then
          "Republican".toList
        else if containsSub "DEM".toList b || containsSub "DEMOCRAT".toList b then
          "Democratic".toList
        else []
      else []

/-- Embedding of `CrossReferenceEngine.get_previous_party`: VUID match
    first, then the (lastname, firstname, round(lat,4), round(lng,4))
    composite key; the earlier party is returned when nonempty and
    different (exact string comparison) from the current party. -/
def getPreviousParty (row : VoterRow) (vuidLookup : List (PyStr × PyStr))
    (nameCoordLookup : List ((PyStr × PyStr × ℚ × ℚ) × PyStr)) : PyStr :=
  let currentParty := extractCurrentPartyFromRow row
  let vuid := pyStrip row.vuid
  let earlierParty :=
    if vuid ≠ [] ∧ (lookupAssoc vuidLookup vuid).isSome then
      (lookupAssoc vuidLookup vuid).getD []
    else
      let lastname := pyUpper (pyStrip row.lastname)
      let firstname := pyUpper (pyStrip row.firstname)
      if lastname ≠ [] ∧ firstname ≠ [] then
        match lookupAssoc nameCoordLookup
            (lastname, firstname, pyRound4 row.lat, pyRound4 row.lng) with
        | some p => p
        | none => []
      else []
  if earlierParty ≠ [] ∧ earlierParty ≠ currentParty then earlierParty else []

/-- The party comparison as the C2 claim words it (after the spec):
    case-insensitive, with substring-based DEM / REP token classes. -/
def partyTokensSameSpec (p q : PyStr) : Bool :=
  let pU := pyUpper p
  let qU := pyUpper q
  pU == qU || (containsSub "DEM".toList pU && containsSub "DEM".toList qU)
    || (containsSub "REP".toList pU && containsSub "REP".toList qU)

/-- C2 counterexample: a voter whose current party is "Democratic" and
    whose earlier party is "DEMOCRATIC" — the same party under the claim's
    case/substring-insensitive comparison, so the claim requires the empty
    string — yet `get_previous_party` compares with exact `!=` and returns
    "DEMOCRATIC". -/
theorem getPreviousParty_claimC2_counterexample :
    getPreviousParty { vuid := "V1".toList, partyAffiliationCurrent := "Democratic".toList }
        [("V1".toList, "DEMOCRATIC".toList)] []
      = "DEMOCRATIC".toList
    ∧ partyTokensSameSpec "DEMOCRATIC".toList
        (extractCurrentPartyFromRow
          { vuid := "V1".toList, partyAffiliationCurrent := "Democratic".toList }) = true
    ∧ "DEMOCRATIC".toList ≠ ([] : PyStr) := by
  refine ⟨by decide, by decide, by decide⟩

/-- C2 amended: `get_previous_party` tries the VUID match first, then the
    (lastname, firstname, round(lat,4), round(lng,4)) composite key; when a
    match is found it returns the earlier party exactly when that party is
    nonempty and differs from the voter's current party under exact
    (case-sensitive) string comparison, and returns the empty string
    otherwise (same string, no match, or empty earlier party). -/
theorem getPreviousParty_spec (row : VoterRow) (vl : List (PyStr × PyStr))
    (ncl : List ((PyStr × PyStr × ℚ × ℚ) × PyStr)) :
    (∀ p, pyStrip row.vuid ≠ [] → lookupAssoc vl (pyStrip row.vuid) = some p →
      getPreviousParty row vl ncl =
        (if p ≠ [] ∧ p ≠ extractCurrentPartyFromRow row then p else []))
    ∧ (∀ p, (pyStrip row.vuid = [] ∨ lookupAssoc vl (pyStrip row.vuid) = none) →
        pyUpper (pyStrip row.lastname) ≠ [] → pyUpper (pyStrip row.firstname) ≠ [] →
        lookupAssoc ncl (pyUpper (pyStrip row.lastname), pyUpper (pyStrip row.firstname),
          pyRound4 row.lat, pyRound4 row.lng) = some p →
      getPreviousParty row vl ncl =
        (if p ≠ [] ∧ p ≠ extractCurrentPartyFromRow row then p else []))
    ∧ ((pyStrip row.vuid = [] ∨ lookupAssoc vl (pyStrip row.vuid) = none) →
        (pyUpper (pyStrip row.lastname) = [] ∨ pyUpper (pyStrip row.firstname) = [] ∨
          lookupAssoc ncl (pyUpper (pyStrip row.lastname), pyUpper (pyStrip row.firstname),
            pyRound4 row.lat, pyRound4 row.lng) = none) →
      getPreviousParty row vl ncl = []) := by
  refine ⟨?_, ?_, ?_⟩
  · intro p hv hl
    simp [getPreviousParty, hv, hl]
  · intro p hv hln hfn hl
    have hcond : ¬(pyStrip row.vuid ≠ [] ∧ (lookupAssoc vl (pyStrip row.vuid)).isSome) := by
      rcases hv with hv | hv
      · simp [hv]
      · simp [hv]
    simp [getPreviousParty, hcond, hln, hfn, hl]
  · intro hv hn
    have hcond : ¬(pyStrip row.vuid ≠ [] ∧ (lookupAssoc vl (pyStrip row.vuid)).isSome) := by
      rcases hv with hv | hv
      · simp [hv]
      · simp [hv]
    rcases hn with hn | hn | hn
    · simp [getPreviousParty, hcond, hn]
    · simp [getPreviousParty, hcond, hn]
    · simp [getPreviousParty, hcond, hn]

/-- Witness for the amended C2 at a concrete row: the VUID match dominates
    and the exact comparison returns the (case-differing) earlier party. -/
theorem getPreviousParty_spec_witness :
    getPreviousParty { vuid := "V1".toList, party := "R".toList }
        [("V1".toList, "Democratic".toList)] []
      = (if "Democratic".toList ≠ ([] : PyStr) ∧
            "Democratic".toList ≠ extractCurrentPartyFromRow
              { vuid := "V1".toList, party := "R".toList }
          then "Democratic".toList else []) := by
  exact (getPreviousParty_spec { vuid := "V1".toList, party := "R".toList }
    [("V1".toList, "Democratic".toList)] []).1 "Democratic".toList (by decide) (by decide)

/-! String ordering and stable sorting, modelling Python `sorted` /
    `list.sort` on the date-part strings of snapshot filenames. -/

/-- Lexicographic string comparison by character code, as Python `<=`. -/
def pyStrLe : PyStr → PyStr → Bool
  | [], _ => true
  | _ :: _, [] => false
  | c :: cs, d :: ds =>
    if c.toNat < d.toNat then true
    else if d.toNat < c.toNat then false
    else pyStrLe cs ds

theorem pyStrLe_refl (a : PyStr) : pyStrLe a a = true := by
  induction a with
  | nil => rfl
  | cons c cs ih => simp [pyStrLe, ih]

theorem pyStrLe_total (a b : PyStr) : pyStrLe a b = true ∨ pyStrLe b a = true := by
  induction a generalizing b with
  | nil => left; rfl
  | cons c cs ih =>
    cases b with
    | nil => right; rfl
    | cons d ds =>
      by_cases h1 : c.toNat < d.toNat
      · left; simp [pyStrLe, h1]
      · by_cases h2 : d.toNat < c.toNat
        · right; simp [pyStrLe, h2]
        · rcases ih ds with h | h
          · left; simp [pyStrLe, h1, h2, h]
          · right; simp [pyStrLe, h1, h2, h]

theorem pyStrLe_trans {a b c : PyStr} (h1 : pyStrLe a b = true)
    (h2 : pyStrLe b c = true) : pyStrLe a c = true := by
  induction a generalizing b c with
  | nil => rfl
  | cons x xs ih =>
    cases b with
    | nil => simp [pyStrLe] at h1
    | cons y ys =>
      cases c with
      | nil => simp [pyStrLe] at h2
      | cons z zs =>
        by_cases hxy : x.toNat < y.toNat
        · by_cases hyz : y.toNat < z.toNat
          · have hxz : x.toNat < z.toNat := Nat.lt_trans hxy hyz
            simp [pyStrLe, hxz]
          · by_cases hzy : z.toNat < y.toNat
            · simp [pyStrLe, hyz, hzy] at h2
            · have hxz : x.toNat < z.toNat := by omega
              simp [pyStrLe, hxz]
        · by_cases hyx : y.toNat < x.toNat
          · simp [pyStrLe, hxy, hyx] at h1
          · simp only [pyStrLe, if_neg hxy, if_neg hyx] at h1
            by_cases hyz : y.toNat < z.toNat
            · have hxz : x.toNat < z.toNat := by omega
              simp [pyStrLe, hxz]
            · by_cases hzy : z.toNat < y.toNat
              · simp [pyStrLe, hyz, hzy] at h2
              · simp only [pyStrLe, if_neg hyz, if_neg hzy] at h2
                have hxz1 : ¬ x.toNat < z.toNat := by omega
                have hxz2 : ¬ z.toNat < x.toNat := by omega
                simp only [pyStrLe, if_neg hxz1, if_neg hxz2]
                exact ih h1 h2

theorem char_toNat_inj {c d : Char} (h : c.toNat = d.toNat) : c = d := by
  have hv : c.val = d.val := UInt32.ext h
  exact Char.ext hv

theorem pyStrLe_antisymm {a b : PyStr} (h1 : pyStrLe a b = true)
    (h2 : pyStrLe b a = true) : a = b := by
  induction a generalizing b with
  | nil =>
    cases b with
    | nil => rfl
    | cons d ds => simp [pyStrLe] at h2
  | cons c cs ih =>
    cases b with
    | nil => simp [pyStrLe] at h1
    | cons d ds =>
      by_cases hcd : c.toNat < d.toNat
      · have hdc : ¬ d.toNat < c.toNat := by omega
        simp [pyStrLe, hcd, hdc] at h2
      · by_cases hdc : d.toNat < c.toNat
        · simp [pyStrLe, hcd, hdc] at h1
        · simp only [pyStrLe, if_neg hcd, if_neg hdc] at h1 h2
          have hc : c = d := char_toNat_inj (by omega)
          rw [hc, ih h1 h2]

/-- Stable insertion used by the insertion sort. -/
def insertLe {α : Type} (le : α → α → Bool) (a : α) : List α → List α
  | [] => [a]
  | b :: l => if le a b then a :: b :: l else b :: insertLe le a l

/-- Stable sort by a boolean comparison, modelling Python's stable sort. -/
def sortLe {α : Type} (le : α → α → Bool) : List α → List α
  | [] => []
  | a :: l => insertLe le a (sortLe le l)

theorem insertLe_perm {α : Type} (le : α → α → Bool) (a : α) (l : List α) :
    List.Perm (insertLe le a l) (a :: l) := by
  induction l with
  | nil => exact List.Perm.refl _
  | cons b l ih =>
    by_cases h : le a b
    · simp [insertLe, h]
    · simp only [insertLe, if_neg h]
      exact (ih.cons b).trans (List.Perm.swap a b l)

theorem sortLe_perm {α : Type} (le : α → α → Bool) (l : List α) :
    List.Perm (sortLe le l) l := by
  induction l with
  | nil => exact List.Perm.refl _
  | cons a l ih => exact (insertLe_perm le a (sortLe le l)).trans (ih.cons a)

theorem insertLe_pairwise {α : Type} (le : α → α → Bool)
    (htot : ∀ a b, le a b = true ∨ le b a = true)
    (htrans : ∀ a b c, le a b = true → le b c = true → le a c = true)
    (a : α) (l : List α) (h : List.Pairwise (fun x y => le x y = true) l) :
    List.Pairwise (fun x y => le x y = true) (insertLe le a l) := by
  induction l with
  | nil => simp [insertLe]
  | cons b l ih =>
    obtain ⟨hb, hl⟩ := List.pairwise_cons.mp h
    by_cases hab : le a b = true
    · simp only [insertLe, if_pos hab]
      refine List.pairwise_cons.mpr ⟨?_, h⟩
      intro y hy
      rcases List.mem_cons.mp hy with rfl | hy
      · exact hab
      · exact htrans a b y hab (hb y hy)
    · simp only [insertLe, if_neg hab]
      have hba : le b a = true := (htot a b).resolve_left hab
      refine List.pairwise_cons.mpr ⟨?_, ih hl⟩
      intro y hy
      have hy' : y ∈ a :: l := (insertLe_perm le a l).subset hy
      rcases List.mem_cons.mp hy' with rfl | hy'
      · exact hba
      · exact hb y hy'

theorem sortLe_pairwise {α : Type} (le : α → α → Bool)
    (htot : ∀ a b, le a b = true ∨ le b a = true)
    (htrans : ∀ a b c, le a b = true → le b c = true → le a c = true)
    (l : List α) :
    List.Pairwise (fun x y => le x y = true) (sortLe le l) := by
  induction l with
  | nil => simp [sortLe]
  | cons a l ih => exact insertLe_pairwise le htot htrans a (sortLe le l) ih

/-! Python-dict machinery: insertion-order-preserving key update, ordered
    value listing, and the last-write-wins characterization. -/

/-- Python `d[k] = v`: replace in place when the key exists, else append. -/
def updAssoc {α β : Type} [DecidableEq α] : List (α × β) → α → β → List (α × β)
  | [], k, v => [(k, v)]
  | (k0, v0) :: rest, k, v =>
    if k0 = k then (k, v) :: rest else (k0, v0) :: updAssoc rest k v

/-- Sequence of dict writes. -/
def applyWrites {α β : Type} [DecidableEq α] (init : List (α × β)) (ws : List (α × β)) :
    List (α × β) :=
  ws.foldl (fun m kv => updAssoc m kv.1 kv.2) init

/-- The value of the last write to a key in a write sequence. -/
def lastWrite {α β : Type} [DecidableEq α] : List (α × β) → α → Option β
  | [], _ => none
  | kv :: ws, k =>
    match lastWrite ws k with
    | some v => some v
    | none => if kv.1 = k then some kv.2 else none

theorem lookupAssoc_updAssoc {α β : Type} [DecidableEq α]
    (m : List (α × β)) (k k' : α) (v : β) :
    lookupAssoc (updAssoc m k' v) k = if k' = k then some v else lookupAssoc m k := by
  induction m with
  | nil =>
    by_cases h : k' = k <;> simp [updAssoc, lookupAssoc, h]
  | cons kv rest ih =>
    obtain ⟨k0, v0⟩ := kv
    by_cases h0 : k0 = k'
    · subst h0
      by_cases hk : k0 = k <;> simp [updAssoc, lookupAssoc, hk]
    · by_cases hk : k0 = k
      · subst hk
        have h' : ¬ k' = k0 := fun hc => h0 hc.symm
        simp [updAssoc, lookupAssoc, h0, h', ih]
      · simp [updAssoc, lookupAssoc, h0, hk, ih]

theorem lookupAssoc_applyWrites {α β : Type} [DecidableEq α] (ws : List (α × β)) :
    ∀ (init : List (α × β)) (k : α),
      lookupAssoc (applyWrites init ws) k =
        (match lastWrite ws k with
         | some v => some v
         | none => lookupAssoc init k) := by
  induction ws with
  | nil => intro init k; simp [applyWrites, lastWrite]
  | cons kv ws ih =>
    intro init k
    have hstep : applyWrites init (kv :: ws) = applyWrites (updAssoc init kv.1 kv.2) ws := rfl
    rw [hstep, ih]
    cases hlw : lastWrite ws k with
    | some v => simp [lastWrite, hlw]
    | none =>
      by_cases hk : kv.1 = k <;> simp [lastWrite, hlw, lookupAssoc_updAssoc, hk]

theorem lastWrite_append {α β : Type} [DecidableEq α] (ws1 ws2 : List (α × β)) (k : α) :
    lastWrite (ws1 ++ ws2) k =
      (match lastWrite ws2 k with
       | some v => some v
       | none => lastWrite ws1 k) := by
  induction ws1 with
  | nil => cases h2 : lastWrite ws2 k <;> simp [lastWrite, h2]
  | cons kv ws1 ih =>
    simp only [List.cons_append, lastWrite, List.append_eq]
    rw [ih]
    cases h2 : lastWrite ws2 k with
    | none => cases h1 : lastWrite ws1 k <;> simp [h1]
    | some v => simp

/-- Keys of a dict. -/
def keysOf {α β : Type} (m : List (α × β)) : List α := m.map Prod.fst

theorem updAssoc_mem {α β : Type} [DecidableEq α] {m : List (α × β)} {k : α} {v : β}
    {kv : α × β} (h : kv ∈ updAssoc m k v) : kv ∈ m ∨ kv = (k, v) := by
  induction m with
  | nil => simpa [updAssoc] using h
  | cons kv0 rest ih =>
    obtain ⟨k0, v0⟩ := kv0
    by_cases h0 : k0 = k
    · simp only [updAssoc, if_pos h0] at h
      rcases List.mem_cons.mp h with rfl | h
      · exact Or.inr rfl
      · exact Or.inl (List.mem_cons_of_mem _ h)
    · simp only [updAssoc, if_neg h0] at h
      rcases List.mem_cons.mp h with rfl | h
      · exact Or.inl (by simp)
      · rcases ih h with h | h
        · exact Or.inl (List.mem_cons_of_mem _ h)
        · exact Or.inr h

theorem keysOf_updAssoc_mem {α β : Type} [DecidableEq α] {m : List (α × β)} {k a : α} {v : β}
    (h : a ∈ keysOf (updAssoc m k v)) : a ∈ keysOf m ∨ a = k := by
  obtain ⟨kv, hkv, rfl⟩ := List.mem_map.mp h
  rcases updAssoc_mem hkv with h | rfl
  · exact Or.inl (List.mem_map.mpr ⟨kv, h, rfl⟩)
  · exact Or.inr rfl

theorem keysOf_nodup_updAssoc {α β : Type} [DecidableEq α] {m : List (α × β)}
    (h : (keysOf m).Nodup) (k : α) (v : β) : (keysOf (updAssoc m k v)).Nodup := by
  induction m with
  | nil => simp [updAssoc, keysOf]
  | cons kv0 rest ih =>
    obtain ⟨k0, v0⟩ := kv0
    obtain ⟨h0, ht⟩ := List.nodup_cons.mp (show (k0 :: keysOf rest).Nodup from h)
    by_cases hk : k0 = k
    · subst hk
      simp only [updAssoc, if_pos rfl]
      exact List.nodup_cons.mpr ⟨h0, ht⟩
    · simp only [updAssoc, if_neg hk]
      have hnotin : k0 ∉ keysOf (updAssoc rest k v) := by
        intro hc
        rcases keysOf_updAssoc_mem hc with hc | rfl
        · exact h0 hc
        · exact hk rfl
      exact List.nodup_cons.mpr ⟨hnotin, ih ht⟩

theorem applyWrites_nodup {α β : Type} [DecidableEq α] (ws : List (α × β)) :
    ∀ init : List (α × β), (keysOf init).Nodup → (keysOf (applyWrites init ws)).Nodup := by
  induction ws with
  | nil => intro init h; exact h
  | cons kv ws ih =>
    intro init h
    exact ih (updAssoc init kv.1 kv.2) (keysOf_nodup_updAssoc h kv.1 kv.2)

theorem applyWrites_mem {α β : Type} [DecidableEq α] (ws : List (α × β)) :
    ∀ (init : List (α × β)) (kv : α × β),
      kv ∈ applyWrites init ws → kv ∈ init ∨ kv ∈ ws := by
  induction ws with
  | nil => intro init kv h; exact Or.inl h
  | cons kv0 ws ih =>
    intro init kv h
    rcases ih (updAssoc init kv0.1 kv0.2) kv h with h | h
    · rcases updAssoc_mem h with h | h
      · exact Or.inl h
      · exact Or.inr (by simp [h])
    · exact Or.inr (List.mem_cons_of_mem _ h)

theorem filter_values {β : Type} [DecidableEq β] (keyOf : β → PyStr) :
    ∀ (m : List (PyStr × β)), (∀ kv ∈ m, kv.1 = keyOf kv.2) → (keysOf m).Nodup →
      ∀ v, (m.map Prod.snd).filter (fun f => keyOf f = v) =
        (match lookupAssoc m v with | some f => [f] | none => []) := by
  intro m
  induction m with
  | nil => intro _ _ v; simp [lookupAssoc]
  | cons kv m ih =>
    intro hco hnd v
    obtain ⟨k0, f0⟩ := kv
    have hk0 : k0 = keyOf f0 := hco (k0, f0) (by simp)
    have hnd' := List.nodup_cons.mp (show (k0 :: keysOf m).Nodup from hnd)
    have hcot : ∀ kv ∈ m, kv.1 = keyOf kv.2 := fun kv h => hco kv (List.mem_cons_of_mem _ h)
    by_cases hv : keyOf f0 = v
    · have hrest : (m.map Prod.snd).filter (fun f => keyOf f = v) = [] := by
        apply List.filter_eq_nil_iff.mpr
        intro f hf
        obtain ⟨kv', hm, rfl⟩ := List.mem_map.mp hf
        simp only [decide_eq_true_eq]
        intro hkv
        apply hnd'.1
        have : kv'.1 = k0 := by rw [hcot kv' hm, hkv, ← hv, ← hk0]
        exact this ▸ List.mem_map.mpr ⟨kv', hm, rfl⟩
      have hlook : lookupAssoc ((k0, f0) :: m) v = some f0 := by
        simp [lookupAssoc, hk0.symm ▸ hv]
      rw [hlook]
      simp only [List.map_cons, List.filter_cons]
      rw [if_pos (by simpa using hv), hrest]
    · have hk0v : ¬ k0 = v := by rw [hk0]; exact hv
      have hlook : lookupAssoc ((k0, f0) :: m) v = lookupAssoc m v := by
        simp [lookupAssoc, hk0v]
      rw [hlook, ← ih hcot hnd'.2 v]
      simp only [List.map_cons, List.filter_cons]
      rw [if_neg (by simpa using hv)]

/-! Embedding of the early-vote cumulative merge
    (`ProcessingJob._generate_cumulative`, processor.py 1456-1521) and the
    VUID resolver (`VUIDResolver.build_lookup` / `resolve`,
    vuid_resolver.py 116-205). -/

/-- A GeoJSON geometry as accessed by the code. -/
structure Geom where
  type : PyStr
  coordinates : List ℚ
deriving DecidableEq, Repr

/-- A GeoJSON feature restricted to the properties the code reads.  A
    missing `vuid` and an empty `vuid` are indistinguishable
    (`props.get('vuid', '')`); `address` / `display_name` keep key-presence
    because `props.get('address', props.get('display_name', ''))` is
    presence-sensitive; `extra` stands for the remaining (untouched)
    properties so that "the same feature" is meaningful. -/
structure GeoFeature where
  vuid : PyStr := []
  lastname : PyStr := []
  firstname : PyStr := []
  address : Option PyStr := none
  displayName : Option PyStr := none
  partyCurrent : PyStr := []
  unmatched : Bool := false
  geometry : Option Geom := none
  extra : PyStr := []
deriving DecidableEq, Repr

/-- One day-snapshot file: the date component of its filename
    (`filepath.stem.split('_')[-1]`) and its feature list.  Within one
    dataset key the filenames share a fixed prefix, so sorting the
    filenames (`sorted(glob(...))`) sorts by this date part. -/
structure Snapshot where
  datePart : PyStr
  features : List GeoFeature
deriving DecidableEq, Repr

/-- Embedding of `VUIDResolver.normalize_vuid`: strip whitespace, then
    remove a trailing `'.' + digits` suffix (the regex `\.\d*$`, which
    matches at the last dot followed only by digits). -/
def normalizeVuid (raw : PyStr) : PyStr :=
  let s := pyStrip raw
  let revStr := s.reverse
  let rest := revStr.dropWhile Char.isDigit
  match rest with
  | '.' :: rest' => rest'.reverse
  | _ => s

/-- The dict writes performed by the `for feature in data.get('features')`
    loop of `_generate_cumulative`: every feature with a truthy `vuid` is
    written under its normalized VUID. -/
def fileWrites (snap : Snapshot) : List (PyStr × GeoFeature) :=
  snap.features.filterMap (fun f =>
    if f.vuid ≠ [] then some (normalizeVuid f.vuid, f) else none)

/-- Comparison of snapshots by filename date part. -/
def snapLe (a b : Snapshot) : Bool := pyStrLe a.datePart b.datePart

/-- The cumulative FeatureCollection plus the metadata fields derived from
    it. -/
structure CumOutput where
  features : List GeoFeature
  matchedVuids : Nat
  unmatchedVuids : Nat
  totalAddresses : Nat
  daySnapshots : List PyStr
deriving DecidableEq, Repr

/-- Embedding of `ProcessingJob._generate_cumulative`: sort the day
    snapshots by filename (= date part), merge their features into a dict
    keyed by normalized VUID (later writes overwrite), emit the dict values
    and the metadata counts, with `day_snapshots` sorted. -/
def generateCumulative (files : List Snapshot) : Option CumOutput :=
  let sortedFiles := sortLe snapLe files
  if sortedFiles = [] then none
  else
    let allFeatures := applyWrites [] ((sortedFiles.map fileWrites).flatten)
    let featuresList := allFeatures.map Prod.snd
    some
      { features := featuresList
      , matchedVuids := (featuresList.filter (fun f => !f.unmatched)).length
      , unmatchedVuids := (featuresList.filter (fun f => f.unmatched)).length
      , totalAddresses := featuresList.length
      , daySnapshots := sortLe pyStrLe (sortedFiles.map Snapshot.datePart) }

theorem lastWrite_flatten_none {β : Type} [DecidableEq PyStr]
    (fw : Snapshot → List (PyStr × β)) (v : PyStr) :
    ∀ fs : List Snapshot, (∀ s ∈ fs, lastWrite (fw s) v = none) →
      lastWrite ((fs.map fw).flatten) v = none := by
  intro fs
  induction fs with
  | nil => intro _; rfl
  | cons f fs ih =>
    intro h
    simp only [List.map_cons, List.flatten_cons]
    rw [lastWrite_append, ih (fun s hs => h s (List.mem_cons_of_mem _ hs)),
      h f (by simp)]

theorem lastWrite_flatten_last {β : Type}
    (fw : Snapshot → List (PyStr × β)) (v : PyStr) :
    ∀ fs : List Snapshot,
      List.Pairwise (fun a b => snapLe a b = true) fs →
      (fs.map Snapshot.datePart).Nodup →
      ∀ s ∈ fs, ∀ r : β, lastWrite (fw s) v = some r →
      (∀ s' ∈ fs, lastWrite (fw s') v ≠ none → pyStrLe s'.datePart s.datePart = true) →
      lastWrite ((fs.map fw).flatten) v = some r := by
  intro fs
  induction fs with
  | nil => intro _ _ s hs; cases hs
  | cons f0 fs ih =>
    intro hpw hnd s hs r hlast hmax
    obtain ⟨hrel, hpw'⟩ := List.pairwise_cons.mp hpw
    have hnd' := List.nodup_cons.mp (show (f0.datePart :: fs.map Snapshot.datePart).Nodup from hnd)
    simp only [List.map_cons, List.flatten_cons]
    rw [lastWrite_append]
    rcases List.mem_cons.mp hs with rfl | hs'
    · have hnone : ∀ s' ∈ fs, lastWrite (fw s') v = none := by
        intro s' hs'
        by_contra hne
        have h1 : pyStrLe s.datePart s'.datePart = true := hrel s' hs'
        have h2 : pyStrLe s'.datePart s.datePart = true :=
          hmax s' (List.mem_cons_of_mem _ hs') hne
        have hdate : s'.datePart = s.datePart := pyStrLe_antisymm h2 h1
        exact hnd'.1 (hdate ▸ List.mem_map.mpr ⟨s', hs', rfl⟩)
      rw [lastWrite_flatten_none fw v fs hnone, hlast]
    · have hmax' : ∀ s' ∈ fs, lastWrite (fw s') v ≠ none →
          pyStrLe s'.datePart s.datePart = true :=
        fun s' h1 h2 => hmax s' (List.mem_cons_of_mem _ h1) h2
      rw [ih hpw' hnd'.2 s hs' r hlast hmax']

theorem snapLe_total : ∀ a b : Snapshot, snapLe a b = true ∨ snapLe b a = true :=
  fun a b => pyStrLe_total a.datePart b.datePart

theorem snapLe_trans : ∀ a b c : Snapshot,
    snapLe a b = true → snapLe b c = true → snapLe a c = true :=
  fun _ _ _ h1 h2 => pyStrLe_trans h1 h2

/-- C7: the cumulative FeatureCollection contains at most one feature per
    normalized identity id; when an id appears in the snapshots, the single
    emitted feature with that id is the last matching feature of the
    latest-dated snapshot containing it (last snapshot wins); and the
    cumulative metadata lists exactly the contributing day snapshots. -/
theorem generateCumulative_dedup (files : List Snapshot) (o : CumOutput) (v : PyStr)
    (hnd : (files.map Snapshot.datePart).Nodup)
    (hgen : generateCumulative files = some o) :
    ((o.features.filter (fun f => normalizeVuid f.vuid = v)).length ≤ 1)
    ∧ (∀ s ∈ files, ∀ r : GeoFeature, lastWrite (fileWrites s) v = some r →
        (∀ s' ∈ files, lastWrite (fileWrites s') v ≠ none →
          pyStrLe s'.datePart s.datePart = true) →
        o.features.filter (fun f => normalizeVuid f.vuid = v) = [r])
    ∧ (∀ d, d ∈ o.daySnapshots ↔ ∃ s ∈ files, s.datePart = d) := by
  rw [generateCumulative] at hgen
  by_cases hf : sortLe snapLe files = []
  · rw [if_pos hf] at hgen
    cases hgen
  · rw [if_neg hf] at hgen
    dsimp only at hgen
    obtain rfl := (Option.some.inj hgen).symm
    have hperm : List.Perm (sortLe snapLe files) files := sortLe_perm snapLe files
    have hco : ∀ kv ∈ applyWrites ([] : List (PyStr × GeoFeature))
        (((sortLe snapLe files).map fileWrites).flatten),
        kv.1 = normalizeVuid kv.2.vuid := by
      intro kv hkv
      rcases applyWrites_mem _ [] kv hkv with h | h
      · cases h
      · obtain ⟨l, hl, hkvl⟩ := List.mem_flatten.mp h
        obtain ⟨s, _, rfl⟩ := List.mem_map.mp hl
        obtain ⟨g, _, hg⟩ := List.mem_filterMap.mp hkvl
        by_cases hgv : g.vuid ≠ []
        · rw [if_pos hgv] at hg
          cases hg
          rfl
        · rw [if_neg hgv] at hg
          cases hg
    have hkeys : (keysOf (applyWrites ([] : List (PyStr × GeoFeature))
        (((sortLe snapLe files).map fileWrites).flatten))).Nodup :=
      applyWrites_nodup _ [] (by simp [keysOf])
    have hfilter := filter_values (fun f => normalizeVuid f.vuid) _ hco hkeys
    refine ⟨?_, ?_, ?_⟩
    · show ((applyWrites [] (((sortLe snapLe files).map fileWrites).flatten)).map
          Prod.snd |>.filter (fun f => normalizeVuid f.vuid = v)).length ≤ 1
      rw [hfilter v]
      cases lookupAssoc (applyWrites [] (((sortLe snapLe files).map fileWrites).flatten)) v <;>
        simp
    · intro s hs r hlast hmax
      have hs' : s ∈ sortLe snapLe files := hperm.mem_iff.mpr hs
      have hmax' : ∀ s' ∈ sortLe snapLe files, lastWrite (fileWrites s') v ≠ none →
          pyStrLe s'.datePart s.datePart = true :=
        fun s' h1 h2 => hmax s' (hperm.mem_iff.mp h1) h2
      have hndsorted : ((sortLe snapLe files).map Snapshot.datePart).Nodup :=
        ((hperm.map Snapshot.datePart).nodup_iff).mpr hnd
      have hpw : List.Pairwise (fun a b => snapLe a b = true) (sortLe snapLe files) :=
        sortLe_pairwise snapLe snapLe_total snapLe_trans files
      have hlw : lastWrite (((sortLe snapLe files).map fileWrites).flatten) v = some r :=
        lastWrite_flatten_last fileWrites v _ hpw hndsorted s hs' r hlast hmax'
      have hlook : lookupAssoc (applyWrites []
          (((sortLe snapLe files).map fileWrites).flatten)) v = some r := by
        rw [lookupAssoc_applyWrites, hlw]
      show ((applyWrites [] (((sortLe snapLe files).map fileWrites).flatten)).map
          Prod.snd).filter (fun f => normalizeVuid f.vuid = v) = [r]
      rw [hfilter v, hlook]
    · intro d
      show d ∈ sortLe pyStrLe ((sortLe snapLe files).map Snapshot.datePart) ↔ _
      constructor
      · intro hd
        have hd' : d ∈ (sortLe snapLe files).map Snapshot.datePart :=
          (sortLe_perm pyStrLe _).subset hd
        obtain ⟨s, hs, rfl⟩ := List.mem_map.mp hd'
        exact ⟨s, hperm.mem_iff.mp hs, rfl⟩
      · rintro ⟨s, hs, rfl⟩
        have hmem : s.datePart ∈ (sortLe snapLe files).map Snapshot.datePart :=
          List.mem_map.mpr ⟨s, hperm.mem_iff.mpr hs, rfl⟩
        exact (sortLe_perm pyStrLe _).mem_iff.mpr hmem

/-- Concrete data for the C7 witness: the same id V3 in two day snapshots
    with different payloads. -/
def c7f1 : GeoFeature := { vuid := "V3".toList, extra := "loc1".toList }

def c7f2 : GeoFeature := { vuid := "V3".toList, extra := "loc2".toList }

def c7files : List Snapshot :=
  [{ datePart := "20260101".toList, features := [c7f1] },
   { datePart := "20260102".toList, features := [c7f2] }]

def c7out : CumOutput :=
  { features := [c7f2], matchedVuids := 1, unmatchedVuids := 0, totalAddresses := 1,
    daySnapshots := ["20260101".toList, "20260102".toList] }

/-- Witness for C7: with V3 present in two dated snapshots, the cumulative
    output holds exactly one V3 feature — the later snapshot's. -/
theorem generateCumulative_dedup_witness :
    c7out.features.filter (fun f => normalizeVuid f.vuid = "V3".toList) = [c7f2] := by
  have h := generateCumulative_dedup c7files c7out "V3".toList (by decide) (by decide)
  exact h.2.1 { datePart := "20260102".toList, features := [c7f2] } (by decide) c7f2
    (by decide) (by decide)

theorem filter_length_split {α : Type} (p : α → Bool) (l : List α) :
    (l.filter (fun a => !(p a))).length + (l.filter p).length = l.length := by
  induction l with
  | nil => rfl
  | cons a l ih => by_cases h : p a <;> simp [List.filter_cons, h, ← ih] <;> omega

/-- Concrete data for the C10 witness: a snapshot whose first feature has
    no identity id. -/
def c10files : List Snapshot :=
  [{ datePart := "20260101".toList,
     features := [{ vuid := [] }, { vuid := "V1".toList }] }]

def c10out : CumOutput :=
  { features := [{ vuid := "V1".toList }], matchedVuids := 1, unmatchedVuids := 0,
    totalAddresses := 1, daySnapshots := ["20260101".toList] }

/-- C10: the cumulative merge silently drops identity-less records: every
    emitted feature has a nonempty vuid, the matched/unmatched counts cover
    exactly the emitted features, and the cumulative total can be smaller
    than the combined feature count of the snapshots. -/
theorem generateCumulative_drops_vuidless :
    (∀ (files : List Snapshot) (o : CumOutput), generateCumulative files = some o →
      (∀ f ∈ o.features, f.vuid ≠ [])
      ∧ o.matchedVuids + o.unmatchedVuids = o.features.length
      ∧ o.totalAddresses = o.features.length)
    ∧ (∃ (files : List Snapshot) (o : CumOutput),
        generateCumulative files = some o ∧
        o.totalAddresses < (files.map (fun s => s.features.length)).sum) := by
  constructor
  · intro files o hgen
    rw [generateCumulative] at hgen
    by_cases hf : sortLe snapLe files = []
    · rw [if_pos hf] at hgen
      cases hgen
    · rw [if_neg hf] at hgen
      dsimp only at hgen
      obtain rfl := (Option.some.inj hgen).symm
      refine ⟨?_, ?_, rfl⟩
      · intro f hf'
        obtain ⟨kv, hkv, rfl⟩ := List.mem_map.mp hf'
        rcases applyWrites_mem _ [] kv hkv with h | h
        · cases h
        · obtain ⟨l, hl, hkvl⟩ := List.mem_flatten.mp h
          obtain ⟨s, _, rfl⟩ := List.mem_map.mp hl
          obtain ⟨g, _, hg⟩ := List.mem_filterMap.mp hkvl
          by_cases hgv : g.vuid ≠ []
          · rw [if_pos hgv] at hg
            cases hg
            exact hgv
          · rw [if_neg hgv] at hg
            cases hg
      · exact (filter_length_split (fun f : GeoFeature => f.unmatched) _)
  · exact ⟨c10files, c10out, by decide, by decide⟩

/-- Witness for C10 at the concrete snapshot with a vuid-less feature. -/
theorem generateCumulative_drops_vuidless_witness :
    (∀ f ∈ c10out.features, f.vuid ≠ [])
    ∧ c10out.matchedVuids + c10out.unmatchedVuids = c10out.features.length
    ∧ c10out.totalAddresses = c10out.features.length :=
  generateCumulative_drops_vuidless.1 c10files c10out (by decide)

/-! Embedding of `VUIDResolver.build_lookup` / `resolve`
    (src/backend/vuid_resolver.py 116-205).  The input is the list of the
    county's non-cumulative map_data files, each with the date component of
    its filename; `build_lookup` sorts them by date ascending and folds the
    features into a dict so that later files overwrite earlier ones. -/

/-- The per-VUID record stored by `build_lookup`. -/
structure VuidRecord where
  lat : Option ℚ
  lng : Option ℚ
  address : PyStr
  displayName : PyStr
  partyAffiliationCurrent : PyStr
deriving DecidableEq, Repr

/-- The record built from one feature (vuid_resolver.py 174-187):
    coordinates only when the geometry is a `Point` with a truthy
    coordinate list, else `None`; `display_name` falls back through
    key-presence of `address`. -/
def featureToVuidRecord (f : GeoFeature) : VuidRecord :=
  let latlng : Option ℚ × Option ℚ :=
    match f.geometry with
    | some g =>
      if g.type = "Point".toList ∧ g.coordinates ≠ [] then
        (g.coordinates.get? 1, g.coordinates.get? 0)
      else (none, none)
    | none => (none, none)
  { lat := latlng.1
  , lng := latlng.2
  , address := f.address.getD []
  , displayName :=
      match f.address with
      | some a => a
      | none => f.displayName.getD []
  , partyAffiliationCurrent := f.partyCurrent }

/-- The dict writes of one file's feature loop: features with a truthy raw
    vuid and a nonempty normalized vuid. -/
def fileVuidWrites (snap : Snapshot) : List (PyStr × VuidRecord) :=
  snap.features.filterMap (fun f =>
    if f.vuid ≠ [] then
      (if normalizeVuid f.vuid ≠ [] then
        some (normalizeVuid f.vuid, featureToVuidRecord f)
      else none)
    else none)

/-- Embedding of `VUIDResolver.build_lookup` on the county's file list. -/
def buildLookup (files : List Snapshot) : List (PyStr × VuidRecord) :=
  applyWrites [] (((sortLe snapLe files).map fileVuidWrites).flatten)

/-- Embedding of `VUIDResolver.resolve`. -/
def resolve (lookup : List (PyStr × VuidRecord)) (vuid : PyStr) : Option VuidRecord :=
  lookupAssoc lookup (normalizeVuid vuid)

/-- C9: `build_lookup` applies most-recent-file-wins unconditionally:
    when the latest-dated file containing a VUID ends with a feature whose
    geometry is null, the lookup stores `lat = None`, `lng = None` under
    that VUID — overwriting an earlier dataset's entry with real
    coordinates — so `resolve` afterwards returns a record without
    coordinates despite an older dataset having located the voter. -/
theorem buildLookup_lastFileWins (files : List Snapshot) (v raw : PyStr)
    (s2 : Snapshot) (f : GeoFeature)
    (hnd : (files.map Snapshot.datePart).Nodup)
    (hs2 : s2 ∈ files)
    (hlast : lastWrite (fileVuidWrites s2) v = some (featureToVuidRecord f))
    (hmax : ∀ s' ∈ files, lastWrite (fileVuidWrites s') v ≠ none →
      pyStrLe s'.datePart s2.datePart = true)
    (hgeom : f.geometry = none)
    (hraw : normalizeVuid raw = v)
    (hearlier : ∃ s1 ∈ files, ∃ r1 : VuidRecord,
      lastWrite (fileVuidWrites s1) v = some r1 ∧ r1.lat ≠ none) :
    resolve (buildLookup files) raw = some (featureToVuidRecord f)
    ∧ (featureToVuidRecord f).lat = none
    ∧ (featureToVuidRecord f).lng = none := by
  have hperm : List.Perm (sortLe snapLe files) files := sortLe_perm snapLe files
  have hs2' : s2 ∈ sortLe snapLe files := hperm.mem_iff.mpr hs2
  have hmax' : ∀ s' ∈ sortLe snapLe files, lastWrite (fileVuidWrites s') v ≠ none →
      pyStrLe s'.datePart s2.datePart = true :=
    fun s' h1 h2 => hmax s' (hperm.mem_iff.mp h1) h2
  have hndsorted : ((sortLe snapLe files).map Snapshot.datePart).Nodup :=
    ((hperm.map Snapshot.datePart).nodup_iff).mpr hnd
  have hpw : List.Pairwise (fun a b => snapLe a b = true) (sortLe snapLe files) :=
    sortLe_pairwise snapLe snapLe_total snapLe_trans files
  have hlw : lastWrite (((sortLe snapLe files).map fileVuidWrites).flatten) v
      = some (featureToVuidRecord f) :=
    lastWrite_flatten_last fileVuidWrites v _ hpw hndsorted s2 hs2' _ hlast hmax'
  refine ⟨?_, ?_, ?_⟩
  · rw [resolve, hraw, buildLookup, lookupAssoc_applyWrites, hlw]
  · simp [featureToVuidRecord, hgeom]
  · simp [featureToVuidRecord, hgeom]

/-- Concrete data for the C9 witness: V9 located by the older dataset,
    then present without geometry in the newer one. -/
def c9point : Geom := { type := "Point".toList, coordinates := [-98, 26] }

def c9older : Snapshot :=
  { datePart := "20260101".toList
  , features := [{ vuid := "V9".toList, geometry := some c9point }] }

def c9newer : Snapshot :=
  { datePart := "20260102".toList
  , features := [{ vuid := "V9".toList, geometry := none }] }

/-- Witness for C9: after the newer geometry-less file, `resolve` returns a
    record with no coordinates. -/
theorem buildLookup_lastFileWins_witness :
    resolve (buildLookup [c9older, c9newer]) "V9".toList
      = some (featureToVuidRecord { vuid := "V9".toList, geometry := none })
    ∧ (featureToVuidRecord { vuid := "V9".toList, geometry := none }).lat = none
    ∧ (featureToVuidRecord { vuid := "V9".toList, geometry := none }).lng = none := by
  have h := buildLookup_lastFileWins [c9older, c9newer] "V9".toList "V9".toList
    c9newer { vuid := "V9".toList, geometry := none }
    (by decide) (by decide) (by decide) (by decide) (by decide) (by decide)
    ⟨c9older, by decide, featureToVuidRecord
      { vuid := "V9".toList, geometry := some c9point },
      by decide, by decide⟩
  exact h

/-! Embedding of the `ProcessingJob` status machine
    (`ProcessingJob.run`, processor.py 362-436, and
    `process_early_vote_roster`, 1185-1303).  The trace records every value
    assigned to `self.status`, starting from the `'queued'` set in the
    constructor; the environment captures the branch outcomes of one
    execution (validation verdict, early-vote detection, and whether each
    step raises). -/

inductive JobStatus where
  | queued
  | running
  | completed
  | failed
deriving DecidableEq, Repr

/-- Branch outcomes of one pipeline execution. -/
structure RunEnv where
  validationOk : Bool
  readRaises : Bool
  isEarlyVote : Bool
  earlyRaises : Bool
  cleanRaises : Bool
  geocodeRaises : Bool
  outputsRaises : Bool
  deployRaises : Bool
deriving DecidableEq, Repr

/-- The sequence of statuses assigned during one execution: `queued` at
    construction; `running` at the top of `run()`; then exactly one
    terminal status — `failed` on a validation failure, on an exception in
    any step or in the early-vote path, and `completed` otherwise. -/
def runStatusTrace (env : RunEnv) : List JobStatus :=
  [JobStatus.queued, JobStatus.running] ++
    (if env.validationOk = false then [JobStatus.failed]
     else if env.readRaises then [JobStatus.failed]
     else if env.isEarlyVote then
       (if env.earlyRaises then [JobStatus.failed] else [JobStatus.completed])
     else if env.cleanRaises || env.geocodeRaises || env.outputsRaises || env.deployRaises then
       [JobStatus.failed]
     else [JobStatus.completed])

/-- C8: in every execution the status only moves forward along
    queued → running → (completed | failed): adjacent transitions are only
    queued-to-running or running-to-terminal, so there is never a
    back-transition from running, from a terminal state, or between the two
    terminal states. -/
theorem runStatusTrace_monotone (env : RunEnv) :
    List.Chain' (fun a b =>
        (a = JobStatus.queued ∧ b = JobStatus.running)
        ∨ (a = JobStatus.running ∧ (b = JobStatus.completed ∨ b = JobStatus.failed)))
      (runStatusTrace env)
    ∧ (runStatusTrace env).head? = some JobStatus.queued
    ∧ ((runStatusTrace env).getLast? = some JobStatus.completed
       ∨ (runStatusTrace env).getLast? = some JobStatus.failed) := by
  obtain ⟨v, r, e, er, c, g, ob, d⟩ := env
  cases v <;> cases r <;> cases e <;> cases er <;> cases c <;> cases g <;> cases ob <;>
    cases d <;> simp [runStatusTrace, List.chain'_cons]

end WhoVoted
